import Mathlib

/-!
# Verification of the pve-xtermjs terminal proxy (src/main.rs)

A shallow embedding of the message-framing codec and proxy drain loop of the
`termproxy` binary, together with models of the handshake helpers
(`read_ticket_line`, `authenticate`).

Conventions of the embedding:

* Bytes are `Nat`s below 256; byte buffers are `List Nat`.  The `ByteBuffer`
  operations of the external `proxmox_io` crate are modelled by their
  documented list semantics: `consume n` is `List.drop n`, `remove_data pos`
  extracts the first `pos` bytes, `is_full` is `length = capacity`.
* Rust `usize` is modelled as `Nat` with the 64-bit range made explicit where
  the source can overflow (`str::parse::<usize>` fails for values ≥ 2^64); the
  `u8` subtraction `buf[0] - b'0'` is modelled with its release-mode wrapping
  semantics `(b + 256 - 48) % 256`; the `as u16` casts in `set_size(cols as
  u16, rows as u16)` are `% 65536`.
* Fallible operations return `Except String` mirroring the `anyhow::Result`
  error strings of the source; external I/O outcomes (pty writes, the HTTP
  response, poll readiness) are supplied as explicit oracle values so the
  state machines stay deterministic functions of their inputs.
-/

/-! ## Byte-buffer scanning helpers -/

/-- First index of byte `t` in a list: `buf.iter().position(|&x| x == t)`. -/
def bytePos (t : Nat) : List Nat → Option Nat
  | [] => none
  | b :: rest => if b = t then some 0 else (bytePos t rest).map (· + 1)

/-- ASCII decimal digit test, `'0' ≤ b ≤ '9'`. -/
def isDigitB (b : Nat) : Bool := 48 ≤ b && b ≤ 57

/-- Value of a big-endian ASCII digit string. -/
def natValue (ds : List Nat) : Nat := ds.foldl (fun a d => 10 * a + (d - 48)) 0

/-- Model of `std::str::from_utf8(..)` followed by `str::parse::<usize>()` on a
byte token, on a 64-bit target.  The parse succeeds exactly on a nonempty
digit string, optionally preceded by one `'+'`, whose value fits in `u64`;
every token containing a non-digit byte fails either UTF-8 decoding or the
integer parse, and both failures feed the same `break` in the source. -/
def parse_usize (tok : List Nat) : Option Nat :=
  let ds := if tok.head? = some 43 then tok.tail else tok
  if ds.isEmpty then none
  else if ds.all isDigitB then
    if natValue ds < 2 ^ 64 then some (natValue ds) else none
  else none

/-! ## remove_number (src/main.rs lines 26-52)

The Rust function mutates the buffer and returns `Option<usize>`; the model
returns the parse result together with the buffer contents it leaves behind. -/

/-- Model of `remove_number`.  Searches the whole buffer for `':'`; on a hit it
removes the token and the `':'` (`remove_data(pos)` + `consume(1)`) and either
returns the parsed value or, on a parse failure, breaks with `None` (the token
bytes stay removed).  With no `':'` buffered it discards 20 bytes while more
than 20 are buffered, then breaks. -/
def remove_number (buf : List Nat) : Option Nat × List Nat :=
  match bytePos 58 buf with
  | some pos =>
    match parse_usize (buf.take pos) with
    | some len => (some len, buf.drop (pos + 1))
    | none => (none, buf.drop (pos + 1))
  | none =>
    if buf.length > 20 then remove_number (buf.drop 20)
    else (none, buf)
termination_by buf.length
decreasing_by simp [List.length_drop]; omega

theorem remove_number_length_le (buf : List Nat) :
    (remove_number buf).2.length ≤ buf.length := by
  induction buf using remove_number.induct with
  | case1 buf pos hpos len hp =>
    rw [remove_number]; simp [hpos, hp, List.length_drop]
  | case2 buf pos hpos hp =>
    rw [remove_number]; simp [hpos, hp, List.length_drop]
  | case3 buf hpos h20 ih =>
    rw [remove_number]; simp only [hpos, if_pos h20]
    simp only [List.length_drop] at ih ⊢; omega
  | case4 buf hpos h20 =>
    rw [remove_number]; simp only [hpos, if_neg h20]; exact le_refl _

/-! ## process_queue (src/main.rs lines 54-86) -/

/-- Result of one `process_queue` call: the returned `Option<usize>` (a DATA
payload length to forward), the buffer contents left behind, and the resizes
applied to the pty, in order, as `(cols as u16, rows as u16)` pairs. -/
structure PQRes where
  res : Option Nat
  buf : List Nat
  resizes : List (Nat × Nat)
deriving DecidableEq, Repr

/-- The `loop` body of `process_queue`.  `rok c r` is the outcome of
`pty.set_size(c, r)`: on `false` the `.ok()?` propagates `None` immediately.
The loop breaks when fewer than 2 bytes are buffered; the tag byte is
dispatched through the wrapping `u8` subtraction `buf[0] - b'0'`. -/
def process_queue_loop (rok : Nat → Nat → Bool) : List Nat → PQRes
  | [] => ⟨none, [], []⟩
  | [b] => ⟨none, [b], []⟩
  | b :: b2 :: rest =>
    let msgtype := (b + 256 - 48) % 256
    if msgtype = 0 then
      match (remove_number rest).1 with
      | some len => ⟨some len, (remove_number rest).2, []⟩
      | none => process_queue_loop rok (remove_number rest).2
    else if msgtype = 1 then
      match (remove_number rest).1 with
      | some cols =>
        match (remove_number (remove_number rest).2).1 with
        | some rows =>
          if rok (cols % 65536) (rows % 65536) then
            let r := process_queue_loop rok (remove_number (remove_number rest).2).2
            ⟨r.res, r.buf, (cols % 65536, rows % 65536) :: r.resizes⟩
          else ⟨none, (remove_number (remove_number rest).2).2, []⟩
        | none => process_queue_loop rok (remove_number (remove_number rest).2).2
      | none => process_queue_loop rok (remove_number rest).2
    else
      process_queue_loop rok (b2 :: rest)
termination_by buf => buf.length
decreasing_by
  all_goals
    first
    | (have h1 := remove_number_length_le rest
       have h2 := remove_number_length_le (remove_number rest).2
       simp at h1 h2 ⊢
       omega)
    | simp

/-- Model of `process_queue`: the initial `is_empty` early return followed by
the parsing loop. -/
def process_queue (rok : Nat → Nat → Bool) (buf : List Nat) : PQRes :=
  if buf.isEmpty then ⟨none, buf, []⟩ else process_queue_loop rok buf


/-! ### Branch equations for the process_queue loop -/

theorem pq_loop_data_some (rok : Nat → Nat → Bool) (b b2 len : Nat)
    (rest buf' : List Nat) (h0 : (b + 256 - 48) % 256 = 0)
    (hd : remove_number rest = (some len, buf')) :
    process_queue_loop rok (b :: b2 :: rest) = ⟨some len, buf', []⟩ := by
  rw [process_queue_loop]
  simp only [h0, reduceIte, hd]

theorem pq_loop_data_none (rok : Nat → Nat → Bool) (b b2 : Nat)
    (rest buf' : List Nat) (h0 : (b + 256 - 48) % 256 = 0)
    (hd : remove_number rest = (none, buf')) :
    process_queue_loop rok (b :: b2 :: rest) = process_queue_loop rok buf' := by
  rw [process_queue_loop]
  simp only [h0, reduceIte, hd]

theorem pq_loop_resize_ok (rok : Nat → Nat → Bool) (b b2 cols rows : Nat)
    (rest buf' buf'' : List Nat) (h1 : (b + 256 - 48) % 256 = 1)
    (hc : remove_number rest = (some cols, buf'))
    (hr : remove_number buf' = (some rows, buf''))
    (hok : rok (cols % 65536) (rows % 65536) = true) :
    process_queue_loop rok (b :: b2 :: rest) =
      ⟨(process_queue_loop rok buf'').res, (process_queue_loop rok buf'').buf,
        (cols % 65536, rows % 65536) :: (process_queue_loop rok buf'').resizes⟩ := by
  rw [process_queue_loop]
  simp only [h1]
  rw [if_neg (by decide : ¬(1 : Nat) = 0), if_pos trivial]
  simp only [hc, hr, hok, if_pos]

theorem pq_loop_resize_fail (rok : Nat → Nat → Bool) (b b2 cols rows : Nat)
    (rest buf' buf'' : List Nat) (h1 : (b + 256 - 48) % 256 = 1)
    (hc : remove_number rest = (some cols, buf'))
    (hr : remove_number buf' = (some rows, buf''))
    (hok : rok (cols % 65536) (rows % 65536) = false) :
    process_queue_loop rok (b :: b2 :: rest) = ⟨none, buf'', []⟩ := by
  rw [process_queue_loop]
  simp only [h1]
  rw [if_neg (by decide : ¬(1 : Nat) = 0), if_pos trivial]
  simp only [hc, hr, hok]
  rfl

theorem pq_loop_resize_rows_none (rok : Nat → Nat → Bool) (b b2 cols : Nat)
    (rest buf' buf'' : List Nat) (h1 : (b + 256 - 48) % 256 = 1)
    (hc : remove_number rest = (some cols, buf'))
    (hr : remove_number buf' = (none, buf'')) :
    process_queue_loop rok (b :: b2 :: rest) = process_queue_loop rok buf'' := by
  rw [process_queue_loop]
  simp only [h1]
  rw [if_neg (by decide : ¬(1 : Nat) = 0), if_pos trivial]
  simp only [hc, hr]

theorem pq_loop_resize_cols_none (rok : Nat → Nat → Bool) (b b2 : Nat)
    (rest buf' : List Nat) (h1 : (b + 256 - 48) % 256 = 1)
    (hc : remove_number rest = (none, buf')) :
    process_queue_loop rok (b :: b2 :: rest) = process_queue_loop rok buf' := by
  rw [process_queue_loop]
  simp only [h1]
  rw [if_neg (by decide : ¬(1 : Nat) = 0), if_pos trivial]
  simp only [hc]

theorem pq_loop_other (rok : Nat → Nat → Bool) (b b2 : Nat) (rest : List Nat)
    (hb0 : (b + 256 - 48) % 256 ≠ 0) (hb1 : (b + 256 - 48) % 256 ≠ 1) :
    process_queue_loop rok (b :: b2 :: rest) = process_queue_loop rok (b2 :: rest) := by
  rw [process_queue_loop]
  simp only [if_neg hb0, if_neg hb1]

theorem process_queue_eq_loop (rok : Nat → Nat → Bool) (buf : List Nat) :
    process_queue rok buf = process_queue_loop rok buf := by
  unfold process_queue
  match buf with
  | [] => rw [process_queue_loop]; rfl
  | b :: rest => rfl

theorem process_queue_loop_some_lt (rok : Nat → Nat → Bool) :
    ∀ (n : Nat) (buf : List Nat), buf.length ≤ n →
    (process_queue_loop rok buf).res.isSome = true →
    (process_queue_loop rok buf).buf.length < buf.length := by
  intro n
  induction n with
  | zero =>
    intro buf hb hs
    have : buf = [] := List.eq_nil_of_length_eq_zero (Nat.le_zero.mp hb)
    subst this
    rw [process_queue_loop] at hs; simp at hs
  | succ n ih =>
    intro buf hb hs
    match buf with
    | [] => rw [process_queue_loop] at hs; simp at hs
    | [b] => rw [process_queue_loop] at hs; simp at hs
    | b :: b2 :: rest =>
      simp only [List.length_cons] at hb
      by_cases h0 : (b + 256 - 48) % 256 = 0
      · rcases hd : remove_number rest with ⟨o, buf'⟩
        have hle := remove_number_length_le rest
        rw [hd] at hle; simp only at hle
        cases o with
        | some len =>
          rw [pq_loop_data_some rok b b2 len rest buf' h0 hd]
          simp; omega
        | none =>
          rw [pq_loop_data_none rok b b2 rest buf' h0 hd] at hs ⊢
          have := ih buf' (by omega) hs
          simp; omega
      · by_cases h1 : (b + 256 - 48) % 256 = 1
        · rcases hc : remove_number rest with ⟨oc, buf'⟩
          have hle := remove_number_length_le rest
          rw [hc] at hle; simp only at hle
          cases oc with
          | some cols =>
            rcases hr : remove_number buf' with ⟨og, buf''⟩
            have hle2 := remove_number_length_le buf'
            rw [hr] at hle2; simp only at hle2
            cases og with
            | some rows =>
              cases hok : rok (cols % 65536) (rows % 65536) with
              | true =>
                rw [pq_loop_resize_ok rok b b2 cols rows rest buf' buf'' h1 hc hr hok] at hs ⊢
                simp only at hs ⊢
                have := ih buf'' (by omega) hs
                simp; omega
              | false =>
                rw [pq_loop_resize_fail rok b b2 cols rows rest buf' buf'' h1 hc hr hok] at hs
                simp at hs
            | none =>
              rw [pq_loop_resize_rows_none rok b b2 cols rest buf' buf'' h1 hc hr] at hs ⊢
              have := ih buf'' (by omega) hs
              simp; omega
          | none =>
            rw [pq_loop_resize_cols_none rok b b2 rest buf' h1 hc] at hs ⊢
            have := ih buf' (by omega) hs
            simp; omega
        · rw [pq_loop_other rok b b2 rest h0 h1] at hs ⊢
          have := ih (b2 :: rest) (by simp; omega) hs
          simp at this ⊢; omega

theorem process_queue_some_lt (rok : Nat → Nat → Bool) (buf : List Nat)
    (v : Nat) (buf' : List Nat) (rs : List (Nat × Nat))
    (h : process_queue rok buf = ⟨some v, buf', rs⟩) :
    buf'.length < buf.length := by
  have := process_queue_loop_some_lt rok buf.length buf (le_refl _)
  rw [← process_queue_eq_loop, h] at this
  simpa using this

/-! ## The network-to-pty drain loop (src/main.rs lines 421-444)

Two models of the `while !pty_buf.is_empty() && pty_writable` loop.
`drain` is the deterministic model under the assumptions that every
`pty.write` accepts all offered bytes and every `set_size` succeeds; it is
used for whole-stream against chunked-stream comparisons.  `drain_writes`
below keeps the write outcomes as an explicit oracle. -/

/-- State left by a drain pass: bytes written to the pty in order, resizes
applied in order, the buffer contents left behind, and the value of the
`remaining` counter carried to the next pass. -/
structure DrainRes where
  out : List Nat
  rs : List (Nat × Nat)
  buf : List Nat
  rem : Nat
deriving DecidableEq, Repr

/-- Full-write model of the pty drain loop.  Each iteration consults
`process_queue` when `remaining = 0` (breaking out of the loop on `None`),
then writes `min remaining (buffer length)` bytes, which the pty accepts
in full. -/
def drain (buf : List Nat) (rem : Nat) : DrainRes :=
  if buf.isEmpty then ⟨[], [], buf, rem⟩
  else if rem = 0 then
    match hpq : process_queue (fun _ _ => true) buf with
    | ⟨none, buf', rs⟩ => ⟨[], rs, buf', 0⟩
    | ⟨some v, buf', rs⟩ =>
      let len := min v buf'.length
      let d := drain (buf'.drop len) (v - len)
      ⟨buf'.take len ++ d.out, rs ++ d.rs, d.buf, d.rem⟩
  else
    let len := min rem buf.length
    let d := drain (buf.drop len) (rem - len)
    ⟨buf.take len ++ d.out, d.rs, d.buf, d.rem⟩
termination_by buf.length
decreasing_by
  · have := process_queue_some_lt (fun _ _ => true) buf v buf' rs hpq
    simp [List.length_drop]; omega
  · rename_i hne hr
    have : buf.length ≠ 0 := by
      intro h; exact hne (List.isEmpty_iff_length_eq_zero.mpr h)
    simp [List.length_drop]; omega

/-- Feeding one network chunk: the chunk is appended to the buffered
leftover (the `read_from` fill phase) and one drain pass runs. -/
def feedChunk (st : DrainRes) (c : List Nat) : DrainRes :=
  let d := drain (st.buf ++ c) st.rem
  ⟨st.out ++ d.out, st.rs ++ d.rs, d.buf, d.rem⟩

/-- Feeding a sequence of network chunks through the codec and drain loop,
starting from an empty buffer with no pending payload. -/
def feed (chunks : List (List Nat)) : DrainRes :=
  chunks.foldl feedChunk ⟨[], [], [], 0⟩

/-- Outcome of one non-blocking `pty.write` call, supplied by an oracle:
the pty accepts `n` bytes (capped at the offered count), reports
`WouldBlock`, or fails with a real I/O error. -/
inductive WRes where
  | accept (n : Nat)
  | wouldBlock
  | ioErr
deriving DecidableEq, Repr

/-- Observable events of a drain pass: a `process_queue` invocation with its
returned value, a `pty.write` call offering `offered` of which `accepted`
bytes were taken, and a successful `set_size`. -/
inductive Ev where
  | codec (r : Option Nat)
  | write (offered : List Nat) (accepted : Nat)
  | resize (cols rows : Nat)
deriving DecidableEq, Repr

/-- Result of an oracle-driven drain pass: the event trace, the leftover
buffer, the `remaining` counter, the `pty_writable` flag, and the unconsumed
write oracle. -/
structure PassRes where
  trace : List Ev
  buf : List Nat
  rem : Nat
  pw : Bool
  oracle : List WRes
deriving DecidableEq, Repr

/-- Prepend events to the trace of a drain-pass result. -/
def prependTrace (evs : List Ev) : Except String PassRes → Except String PassRes
  | .error e => .error e
  | .ok r => .ok ⟨evs ++ r.trace, r.buf, r.rem, r.pw, r.oracle⟩

/-- Oracle-driven model of the pty drain loop (src/main.rs lines 421-444),
with `finished = false` so a write I/O error is fatal.  One loop iteration:
stop if the buffer is empty; if `remaining = 0` call `process_queue`
(`None` breaks the loop, resizes assumed successful unless `rok` says
otherwise); offer `min remaining (buffer length)` bytes to the pty; on
`accept n` consume `min n` of them and decrement `remaining` by the count
actually written; on `WouldBlock` clear `pty_writable` and stop; an
exhausted oracle models the end of the pass. -/
def drain_writes (rok : Nat → Nat → Bool) :
    List WRes → List Nat → Nat → Except String PassRes
  | [], buf, rem =>
    if buf.isEmpty then .ok ⟨[], buf, rem, true, []⟩
    else if rem = 0 then
      match (process_queue rok buf).res with
      | none =>
        .ok ⟨(process_queue rok buf).resizes.map (fun p => Ev.resize p.1 p.2)
              ++ [Ev.codec none],
            (process_queue rok buf).buf, 0, true, []⟩
      | some v =>
        .ok ⟨(process_queue rok buf).resizes.map (fun p => Ev.resize p.1 p.2)
              ++ [Ev.codec (some v)],
            (process_queue rok buf).buf, v, true, []⟩
    else .ok ⟨[], buf, rem, true, []⟩
  | .wouldBlock :: oracle', buf, rem =>
    if buf.isEmpty then .ok ⟨[], buf, rem, true, .wouldBlock :: oracle'⟩
    else if rem = 0 then
      match (process_queue rok buf).res with
      | none =>
        .ok ⟨(process_queue rok buf).resizes.map (fun p => Ev.resize p.1 p.2)
              ++ [Ev.codec none],
            (process_queue rok buf).buf, 0, true, .wouldBlock :: oracle'⟩
      | some v =>
        .ok ⟨(process_queue rok buf).resizes.map (fun p => Ev.resize p.1 p.2)
              ++ [Ev.codec (some v)],
            (process_queue rok buf).buf, v, false, oracle'⟩
    else .ok ⟨[], buf, rem, false, oracle'⟩
  | .ioErr :: oracle', buf, rem =>
    if buf.isEmpty then .ok ⟨[], buf, rem, true, .ioErr :: oracle'⟩
    else if rem = 0 then
      match (process_queue rok buf).res with
      | none =>
        .ok ⟨(process_queue rok buf).resizes.map (fun p => Ev.resize p.1 p.2)
              ++ [Ev.codec none],
            (process_queue rok buf).buf, 0, true, .ioErr :: oracle'⟩
      | some _ => .error "error writing to pty"
    else .error "error writing to pty"
  | .accept n :: oracle', buf, rem =>
    if buf.isEmpty then .ok ⟨[], buf, rem, true, .accept n :: oracle'⟩
    else if rem = 0 then
      match (process_queue rok buf).res with
      | none =>
        .ok ⟨(process_queue rok buf).resizes.map (fun p => Ev.resize p.1 p.2)
              ++ [Ev.codec none],
            (process_queue rok buf).buf, 0, true, .accept n :: oracle'⟩
      | some v =>
        let buf1 := (process_queue rok buf).buf
        let len := min v buf1.length
        let k := min n len
        prependTrace
          ((process_queue rok buf).resizes.map (fun p => Ev.resize p.1 p.2)
            ++ [Ev.codec (some v)] ++ [Ev.write (buf1.take len) k])
          (drain_writes rok oracle' (buf1.drop k) (v - k))
    else
      let len := min rem buf.length
      let k := min n len
      prependTrace [Ev.write (buf.take len) k]
        (drain_writes rok oracle' (buf.drop k) (rem - k))

/-- Pure simulation of the payload-forwarding phase of a drain pass on the
pending payload remainder `p` alone: events, leftover payload, the
`pty_writable` flag, and the unconsumed oracle, or the fatal write error. -/
def writeOut : List WRes → List Nat → Except String (List Ev × List Nat × Bool × List WRes)
  | oracle, [] => .ok ([], [], true, oracle)
  | [], p => .ok ([], p, true, [])
  | .wouldBlock :: oracle', p => .ok ([], p, false, oracle')
  | .ioErr :: _, _ => .error "error writing to pty"
  | .accept n :: oracle', p =>
    let k := min n p.length
    match writeOut oracle' (p.drop k) with
    | .error e => .error e
    | .ok (evs, p', pw, orl) => .ok (Ev.write p k :: evs, p', pw, orl)

/-- Bytes actually accepted by the pty across a trace: for each write event
the first `accepted` of the offered bytes. -/
def writtenBytes (evs : List Ev) : List Nat :=
  (evs.map (fun e =>
    match e with
    | Ev.write off k => off.take k
    | _ => [])).flatten

/-! ## Wire messages and their canonical encodings (spec section 6)

`DATA`: `"0" sep digits(len) ":" payload`; `RESIZE`: `"1" sep digits(cols)
":" digits(rows) ":"`.  The canonical separator byte is `':'` (58), which is
what the client protocol uses; `process_queue` never inspects it. -/

/-- ASCII decimal digits of `n`, most significant first, as written by a
client (`"0"` for zero, no leading zeros otherwise). -/
def natDigits (n : Nat) : List Nat :=
  if n = 0 then [48] else ((Nat.digits 10 n).reverse).map (· + 48)

/-- A parsed control message of the network-to-terminal protocol. -/
inductive Msg where
  | data (payload : List Nat)
  | resize (cols rows : Nat)
deriving DecidableEq, Repr

/-- Canonical encoding of one message. -/
def encodeMsg : Msg → List Nat
  | .data p => 48 :: 58 :: (natDigits p.length ++ 58 :: p)
  | .resize c r => 49 :: 58 :: (natDigits c ++ 58 :: (natDigits r ++ [58]))

/-- Canonical encoding of a message sequence. -/
def encodeMsgs (ms : List Msg) : List Nat := (ms.map encodeMsg).flatten

/-- The numeric fields of a message fit in `usize` (they are produced by
`str::parse::<usize>` on the peer side). -/
def WFmsg : Msg → Prop
  | .data p => p.length < 2 ^ 64
  | .resize c r => c < 2 ^ 64 ∧ r < 2 ^ 64

def WFmsgs (ms : List Msg) : Prop := ∀ m ∈ ms, WFmsg m

/-- Byte positions inside an encoded message stream at which a chunk
boundary leaves the parser in a recoverable state: `splitAligned ms pos`
returns the pending payload remainder and the messages that start after
`pos` when `pos` is at a message boundary or inside (or at either end of)
a DATA payload, and `none` when `pos` falls inside a message header. -/
def splitAligned : List Msg → Nat → Option (List Nat × List Msg)
  | ms, 0 => some ([], ms)
  | [], _ => none
  | m :: ms, pos =>
    let e := (encodeMsg m).length
    if pos < e then
      match m with
      | .data p =>
        let hl := e - p.length
        if hl ≤ pos then some (p.drop (pos - hl), ms) else none
      | .resize _ _ => none
    else splitAligned ms (pos - e)

/-- Chunk-boundary positions relative to a state with pending payload
remainder `p` followed by the encoded messages `ms`. -/
def splitAlignedR (p : List Nat) (ms : List Msg) (pos : Nat) :
    Option (List Nat × List Msg) :=
  if pos ≤ p.length then some (p.drop pos, ms)
  else splitAligned ms (pos - p.length)

/-! ## read_ticket_line (src/main.rs lines 91-144)

The poll loop is driven by an explicit event list: `noEvent` is a poll
wake-up with no readiness event, and `ready r` is a readable event whose
`read_from` call returns `r`.  The deadline elapsing is modelled by the
event list running out.  `cap` is the buffer capacity (`is_full` of the
`ByteBuffer`). -/

/-- Outcome of one `buf.read_from(stream)` call. -/
inductive ReadRes where
  | bytes (bs : List Nat)
  | eof
  | wouldBlock
deriving DecidableEq, Repr

/-- One iteration of the poll loop of `read_ticket_line`. -/
inductive NetEv where
  | ready (r : ReadRes)
  | noEvent
deriving DecidableEq, Repr

/-- Split the buffered first line at the first newline and the line at its
first colon: username before the colon, ticket everything after it
verbatim.  Mirrors lines 132-143 of the source; called only once a newline
is buffered. -/
def finishTicket (buf : List Nat) : Except String (List Nat × List Nat) :=
  match bytePos 10 buf with
  | none => .error "no newline buffered"
  | some idx =>
    let line := buf.take idx
    match bytePos 58 line with
    | some pos => .ok (line.take pos, line.drop (pos + 1))
    | none => .error "authentication data is invalid"

/-- Newline/buffer-full check performed after each read: `some` result ends
the loop, `none` keeps polling. -/
def checkLine (cap : Nat) (buf : List Nat) :
    Option (Except String (List Nat × List Nat)) :=
  if 10 ∈ buf then some (finishTicket buf)
  else if cap ≤ buf.length then some (.error "authentication data is incomplete")
  else none

/-- Model of `read_ticket_line`: reads into a capacity-`cap` buffer until a
newline is buffered, then splits the line into `(username, ticket)`.
A `read_from` returning 0 bytes (EOF) fails; a full buffer with no newline
fails; the deadline elapsing (event exhaustion) fails. -/
def read_ticket_line (cap : Nat) : List NetEv → List Nat →
    Except String (List Nat × List Nat)
  | [], _ => .error "timed out"
  | .noEvent :: evs, buf => read_ticket_line cap evs buf
  | .ready .eof :: _, _ => .error "connection closed before authentication"
  | .ready (.bytes bs) :: evs, buf =>
    let buf' := buf ++ bs.take (cap - buf.length)
    match checkLine cap buf' with
    | some r => r
    | none => read_ticket_line cap evs buf'
  | .ready .wouldBlock :: evs, buf =>
    match checkLine cap buf with
    | some r => r
    | none => read_ticket_line cap evs buf

/-! ## authenticate (src/main.rs lines 146-177) and the handshake step -/

/-- Outcome of `ureq::post(..).send_form(..)`: a response carried by `Ok`,
a status error carrying a response, or a transport failure. -/
inductive UreqResult where
  | ok (status : Nat)
  | statusErr (status : Nat)
  | transportErr
deriving DecidableEq, Repr

/-- Model of `authenticate`.  `utf8_ok` is the combined outcome of the two
`std::str::from_utf8` calls on the username and ticket bytes (the request
is only issued when both decode); the response `resp` is the oracle for the
HTTP call.  `Ok` is returned exactly for a 200-status response. -/
def authenticate (utf8_ok : Bool) (resp : UreqResult) : Except String Unit :=
  if !utf8_ok then .error "invalid utf8"
  else
    match resp with
    | .ok s => if s = 200 then .ok () else .error "invalid authentication"
    | .statusErr _ => .error "invalid authentication"
    | .transportErr => .error "authentication request failed"

/-- The authentication step of `do_main` (lines 304-305): a failed
`authenticate` propagates through `?` (the process exits without entering
proxy mode); on success the two bytes `"OK"` are written to the client and
proxy setup proceeds.  Returns the reply bytes and whether proxy mode is
entered. -/
def after_auth (utf8_ok : Bool) (resp : UreqResult) :
    Except String (List Nat × Bool) :=
  match authenticate utf8_ok resp with
  | .error e => .error e
  | .ok _ => .ok ([79, 75], true)

/-! ## Digit-string lemmas -/

theorem natDigits_ne_nil (n : Nat) : natDigits n ≠ [] := by
  unfold natDigits
  split
  · simp
  · next h =>
    simp only [ne_eq, List.map_eq_nil_iff, List.reverse_eq_nil_iff]
    exact Nat.digits_ne_nil_iff_ne_zero.mpr h

theorem natDigits_mem_digit {n d : Nat} (hd : d ∈ natDigits n) :
    48 ≤ d ∧ d ≤ 57 := by
  unfold natDigits at hd
  split at hd
  · simp at hd; omega
  · simp only [List.mem_map, List.mem_reverse] at hd
    obtain ⟨x, hx, rfl⟩ := hd
    have := Nat.digits_lt_base (by norm_num) hx
    omega

theorem natDigits_not_colon (n : Nat) : 58 ∉ natDigits n := by
  intro h
  have := natDigits_mem_digit h
  omega

theorem natValue_map_add (l : List Nat) :
    ∀ a : Nat, (l.map (· + 48)).foldl (fun a d => 10 * a + (d - 48)) a
      = l.foldl (fun a d => 10 * a + d) a := by
  induction l with
  | nil => intro a; rfl
  | cons x l ih =>
    intro a
    simp only [List.map_cons, List.foldl_cons, Nat.add_sub_cancel]
    exact ih _

theorem foldr_ofDigits (l : List Nat) :
    l.foldr (fun d a => 10 * a + d) 0 = Nat.ofDigits 10 l := by
  induction l with
  | nil => simp [Nat.ofDigits]
  | cons d l ih =>
    simp only [List.foldr_cons, ih, Nat.ofDigits_cons]
    push_cast
    omega

theorem natValue_natDigits (n : Nat) : natValue (natDigits n) = n := by
  unfold natValue natDigits
  split
  · next h => simp [h]
  · rw [natValue_map_add, List.foldl_reverse]
    rw [foldr_ofDigits, Nat.ofDigits_digits]

theorem parse_usize_natDigits {n : Nat} (h : n < 2 ^ 64) :
    parse_usize (natDigits n) = some n := by
  unfold parse_usize
  have hne := natDigits_ne_nil n
  have hhead : (natDigits n).head? ≠ some 43 := by
    cases hh : (natDigits n).head? with
    | none => simp
    | some d =>
      have : d ∈ natDigits n := by
        cases hnd : natDigits n with
        | nil => simp [hnd] at hh
        | cons x l => rw [hnd] at hh; simp at hh; simp [hnd, hh]
      have := natDigits_mem_digit this
      simp; omega
  rw [if_neg hhead]
  rw [if_neg (by simpa using hne)]
  rw [if_pos, natValue_natDigits, if_pos h]
  rw [List.all_eq_true]
  intro d hd
  have := natDigits_mem_digit hd
  simp [isDigitB]; omega

/-! ## bytePos and remove_number lemmas -/

theorem bytePos_eq_none {t : Nat} {l : List Nat} (h : t ∉ l) :
    bytePos t l = none := by
  induction l with
  | nil => rfl
  | cons b rest ih =>
    simp only [List.mem_cons, not_or] at h
    rw [bytePos, if_neg (fun hh => h.1 hh.symm), ih h.2]
    rfl

theorem bytePos_append {t : Nat} {l : List Nat} (h : t ∉ l) (rest : List Nat) :
    bytePos t (l ++ t :: rest) = some l.length := by
  induction l with
  | nil => simp [bytePos]
  | cons b l ih =>
    simp only [List.mem_cons, not_or] at h
    rw [List.cons_append, bytePos, if_neg (fun hh => h.1 hh.symm),
      ih h.2]
    rfl

/-- A token followed by `':'` is removed together with the separator; a good
token yields its value, a bad one yields `None`, and the bytes after the
separator are left in the buffer either way. -/
theorem remove_number_token (tok rest : List Nat) (h : 58 ∉ tok) :
    remove_number (tok ++ 58 :: rest) = (parse_usize tok, rest) := by
  rw [remove_number, bytePos_append h rest]
  have htake : (tok ++ 58 :: rest).take tok.length = tok := List.take_left tok (58 :: rest)
  have hdrop : (tok ++ 58 :: rest).drop (tok.length + 1) = rest := by
    rw [List.drop_append 1]
    rfl
  simp only [htake, hdrop]
  cases parse_usize tok <;> rfl

theorem remove_number_digits {n : Nat} (h : n < 2 ^ 64) (rest : List Nat) :
    remove_number (natDigits n ++ 58 :: rest) = (some n, rest) := by
  rw [remove_number_token _ _ (natDigits_not_colon n), parse_usize_natDigits h]

/-! ## Drain-loop equations and message-level composition -/

theorem drain_nil (rem : Nat) : drain [] rem = ⟨[], [], [], rem⟩ := by
  rw [drain]; rfl

theorem drain_break {buf buf' : List Nat} {rs : List (Nat × Nat)}
    (hne : buf ≠ [])
    (hpq : process_queue (fun _ _ => true) buf = ⟨none, buf', rs⟩) :
    drain buf 0 = ⟨[], rs, buf', 0⟩ := by
  rw [drain]
  rw [if_neg (by simpa using hne), if_pos rfl]
  split
  next b' r' heq => rw [hpq] at heq; cases heq; rfl
  next v b' r' heq => rw [hpq] at heq; cases heq

theorem drain_step {buf buf' : List Nat} {v : Nat} {rs : List (Nat × Nat)}
    (hne : buf ≠ [])
    (hpq : process_queue (fun _ _ => true) buf = ⟨some v, buf', rs⟩) :
    drain buf 0 =
      ⟨buf'.take (min v buf'.length) ++ (drain (buf'.drop (min v buf'.length)) (v - min v buf'.length)).out,
        rs ++ (drain (buf'.drop (min v buf'.length)) (v - min v buf'.length)).rs,
        (drain (buf'.drop (min v buf'.length)) (v - min v buf'.length)).buf,
        (drain (buf'.drop (min v buf'.length)) (v - min v buf'.length)).rem⟩ := by
  rw [drain]
  rw [if_neg (by simpa using hne), if_pos rfl]
  split
  next b' r' heq => rw [hpq] at heq; cases heq
  next v' b' r' heq => rw [hpq] at heq; cases heq; rfl

theorem drain_write {buf : List Nat} {rem : Nat}
    (hne : buf ≠ []) (hrem : rem ≠ 0) :
    drain buf rem =
      ⟨buf.take (min rem buf.length) ++ (drain (buf.drop (min rem buf.length)) (rem - min rem buf.length)).out,
        (drain (buf.drop (min rem buf.length)) (rem - min rem buf.length)).rs,
        (drain (buf.drop (min rem buf.length)) (rem - min rem buf.length)).buf,
        (drain (buf.drop (min rem buf.length)) (rem - min rem buf.length)).rem⟩ := by
  rw [drain]
  rw [if_neg (by simpa using hne), if_neg hrem]

/-- Forwarding a pending payload remainder: the first `p.length` buffered
bytes are written before the codec runs again on whatever follows. -/
theorem drain_payload (p X : List Nat) :
    drain (p ++ X) p.length =
      ⟨p ++ (drain X 0).out, (drain X 0).rs, (drain X 0).buf, (drain X 0).rem⟩ := by
  cases hp : p with
  | nil => simp
  | cons a p' =>
    rw [← hp]
    have hne : p ++ X ≠ [] := by subst hp; simp
    have hrem : p.length ≠ 0 := by subst hp; simp
    rw [drain_write hne hrem]
    have hmin : min p.length (p ++ X).length = p.length := by
      simp [List.length_append]
    rw [hmin, List.take_left, List.drop_left, Nat.sub_self]

theorem pq_data (rok : Nat → Nat → Bool) (s : Nat) {L : Nat} (hL : L < 2 ^ 64)
    (Y : List Nat) :
    process_queue rok (48 :: s :: (natDigits L ++ 58 :: Y)) = ⟨some L, Y, []⟩ := by
  rw [process_queue_eq_loop]
  exact pq_loop_data_some rok 48 s L _ Y (by norm_num) (remove_number_digits hL Y)

theorem pq_resize_ok (rok : Nat → Nat → Bool) (s : Nat) {c r : Nat}
    (hc : c < 2 ^ 64) (hr : r < 2 ^ 64) (Y : List Nat)
    (hok : rok (c % 65536) (r % 65536) = true) :
    process_queue rok (49 :: s :: (natDigits c ++ 58 :: (natDigits r ++ 58 :: Y)))
      = ⟨(process_queue rok Y).res, (process_queue rok Y).buf,
          (c % 65536, r % 65536) :: (process_queue rok Y).resizes⟩ := by
  rw [process_queue_eq_loop, process_queue_eq_loop]
  exact pq_loop_resize_ok rok 49 s c r _ _ Y (by norm_num)
    (remove_number_digits hc _) (remove_number_digits hr Y) hok

theorem pq_resize_fail (rok : Nat → Nat → Bool) (s : Nat) {c r : Nat}
    (hc : c < 2 ^ 64) (hr : r < 2 ^ 64) (Y : List Nat)
    (hok : rok (c % 65536) (r % 65536) = false) :
    process_queue rok (49 :: s :: (natDigits c ++ 58 :: (natDigits r ++ 58 :: Y)))
      = ⟨none, Y, []⟩ := by
  rw [process_queue_eq_loop]
  exact pq_loop_resize_fail rok 49 s c r _ _ Y (by norm_num)
    (remove_number_digits hc _) (remove_number_digits hr Y) hok

/-- Encoded-message append normal forms. -/
theorem encodeMsg_data_append (p X : List Nat) :
    encodeMsg (.data p) ++ X = 48 :: 58 :: (natDigits p.length ++ 58 :: (p ++ X)) := by
  simp [encodeMsg]

theorem encodeMsg_resize_append (c r : Nat) (X : List Nat) :
    encodeMsg (.resize c r) ++ X
      = 49 :: 58 :: (natDigits c ++ 58 :: (natDigits r ++ 58 :: X)) := by
  simp [encodeMsg]

/-- Draining a complete DATA message writes its payload verbatim and then
continues on the following bytes with nothing pending. -/
theorem drain_data {p : List Nat} (hL : p.length < 2 ^ 64) (X : List Nat) :
    drain (encodeMsg (.data p) ++ X) 0 =
      ⟨p ++ (drain X 0).out, (drain X 0).rs, (drain X 0).buf, (drain X 0).rem⟩ := by
  rw [encodeMsg_data_append]
  rw [drain_step (by simp) (pq_data _ 58 hL (p ++ X))]
  have hmin : min p.length (p ++ X).length = p.length := by
    simp [List.length_append]
  rw [hmin, List.take_left, List.drop_left, Nat.sub_self]
  simp

/-- Draining a complete RESIZE message applies the resize and continues on
the following bytes in the same `process_queue` call. -/
theorem drain_resize {c r : Nat} (hc : c < 2 ^ 64) (hr : r < 2 ^ 64)
    (X : List Nat) :
    drain (encodeMsg (.resize c r) ++ X) 0 =
      ⟨(drain X 0).out, (c % 65536, r % 65536) :: (drain X 0).rs,
        (drain X 0).buf, (drain X 0).rem⟩ := by
  rw [encodeMsg_resize_append]
  have hpq := pq_resize_ok (fun _ _ => true) 58 hc hr X rfl
  rcases hX : process_queue (fun _ _ => true) X with ⟨oX, bufX, rsX⟩
  rw [hX] at hpq
  cases oX with
  | none =>
    rw [drain_break (by simp) hpq]
    cases hXnil : X with
    | nil =>
      rw [hXnil] at hX
      rw [process_queue] at hX
      simp at hX
      obtain ⟨h1, h2⟩ := hX
      rw [drain_nil]
      simp [← h1, ← h2]
    | cons x xs =>
      rw [← hXnil]
      rw [drain_break (by simp [hXnil]) hX]
  | some v =>
    rw [drain_step (by simp) hpq]
    cases hXnil : X with
    | nil =>
      rw [hXnil] at hX
      rw [process_queue] at hX
      simp at hX
    | cons x xs =>
      rw [← hXnil]
      rw [drain_step (by simp [hXnil]) hX]
      simp

/-! ## Alignment lemmas for chunk boundaries -/

theorem encodeMsgs_nil : encodeMsgs [] = [] := rfl

theorem encodeMsgs_cons (m : Msg) (ms : List Msg) :
    encodeMsgs (m :: ms) = encodeMsg m ++ encodeMsgs ms := by
  simp [encodeMsgs]

theorem encodeMsg_pos (m : Msg) : 0 < (encodeMsg m).length := by
  cases m <;> simp [encodeMsg]

theorem encodeMsg_data_eq (p : List Nat) :
    encodeMsg (.data p) = (48 :: 58 :: (natDigits p.length ++ [58])) ++ p := by
  simp [encodeMsg]

theorem encodeMsg_data_length (p : List Nat) :
    (encodeMsg (.data p)).length = ((natDigits p.length).length + 3) + p.length := by
  simp [encodeMsg]; omega

theorem encodeMsgs_eq_nil {ms : List Msg} (h : encodeMsgs ms = []) : ms = [] := by
  cases ms with
  | nil => rfl
  | cons m ms =>
    rw [encodeMsgs_cons] at h
    rcases List.append_eq_nil.mp h with ⟨h1, h2⟩
    have := encodeMsg_pos m
    rw [h1] at this
    simp at this

theorem splitAligned_zero (ms : List Msg) : splitAligned ms 0 = some ([], ms) := by
  cases ms <;> rfl

theorem splitAligned_nil {pos : Nat} (h : pos ≠ 0) :
    splitAligned [] pos = none := by
  cases pos with
  | zero => exact absurd rfl h
  | succ k => rfl

theorem splitAligned_cons_ge {m : Msg} {ms : List Msg} {pos : Nat}
    (hpos : pos ≠ 0) (hge : (encodeMsg m).length ≤ pos) :
    splitAligned (m :: ms) pos = splitAligned ms (pos - (encodeMsg m).length) := by
  cases pos with
  | zero => exact absurd rfl hpos
  | succ k =>
    simp only [splitAligned]
    rw [if_neg (by omega)]

theorem splitAligned_cons_lt_data {p : List Nat} {ms : List Msg} {pos : Nat}
    (hpos : pos ≠ 0) (hlt : pos < (encodeMsg (.data p)).length)
    (hhl : (encodeMsg (.data p)).length - p.length ≤ pos) :
    splitAligned (.data p :: ms) pos
      = some (p.drop (pos - ((encodeMsg (.data p)).length - p.length)), ms) := by
  cases pos with
  | zero => exact absurd rfl hpos
  | succ k =>
    simp only [splitAligned]
    rw [if_pos hlt]
    rw [if_pos hhl]

theorem splitAligned_cons_lt_data_none {p : List Nat} {ms : List Msg} {pos : Nat}
    (hpos : pos ≠ 0) (hlt : pos < (encodeMsg (.data p)).length)
    (hhl : pos < (encodeMsg (.data p)).length - p.length) :
    splitAligned (.data p :: ms) pos = none := by
  cases pos with
  | zero => exact absurd rfl hpos
  | succ k =>
    simp only [splitAligned]
    rw [if_pos hlt]
    rw [if_neg (by omega)]

theorem splitAligned_cons_lt_resize {c r : Nat} {ms : List Msg} {pos : Nat}
    (hpos : pos ≠ 0) (hlt : pos < (encodeMsg (.resize c r)).length) :
    splitAligned (.resize c r :: ms) pos = none := by
  cases pos with
  | zero => exact absurd rfl hpos
  | succ k =>
    simp only [splitAligned]
    rw [if_pos hlt]

theorem splitAlignedR_nil_pending (ms : List Msg) (pos : Nat) :
    splitAlignedR [] ms pos = splitAligned ms pos := by
  unfold splitAlignedR
  cases pos with
  | zero => rw [if_pos (by simp), splitAligned_zero]; simp
  | succ k => rw [if_neg (by simp)]; rfl

theorem data_header_length (p : List Nat) :
    (48 :: 58 :: (natDigits p.length ++ [58])).length
      = (encodeMsg (.data p)).length - p.length := by
  rw [encodeMsg_data_length]; simp

theorem splitAligned_drop :
    ∀ (ms : List Msg) (pos : Nat) (p₂ : List Nat) (ms₂ : List Msg),
    splitAligned ms pos = some (p₂, ms₂) →
    (encodeMsgs ms).drop pos = p₂ ++ encodeMsgs ms₂ := by
  intro ms
  induction ms with
  | nil =>
    intro pos p₂ ms₂ h
    cases pos with
    | zero => rw [splitAligned_zero] at h; cases h; simp [encodeMsgs_nil]
    | succ k => rw [splitAligned_nil (by omega)] at h; cases h
  | cons m ms ih =>
    intro pos p₂ ms₂ h
    cases pos with
    | zero => rw [splitAligned_zero] at h; cases h; simp
    | succ k =>
      by_cases hge : (encodeMsg m).length ≤ k + 1
      · rw [splitAligned_cons_ge (by omega) hge] at h
        have := ih _ _ _ h
        rw [encodeMsgs_cons,
          show k + 1 = (encodeMsg m).length + (k + 1 - (encodeMsg m).length) by omega,
          List.drop_append]
        exact this
      · cases m with
        | resize c r =>
          rw [splitAligned_cons_lt_resize (by omega) (by omega)] at h
          cases h
        | data p =>
          by_cases hhl : (encodeMsg (.data p)).length - p.length ≤ k + 1
          · rw [splitAligned_cons_lt_data (by omega) (by omega) hhl] at h
            cases h
            rw [encodeMsgs_cons, encodeMsg_data_eq, List.append_assoc]
            have hH := data_header_length p
            conv_lhs =>
              rw [show k + 1 = (48 :: 58 :: (natDigits p.length ++ [58])).length
                    + (k + 1 - ((encodeMsg (.data p)).length - p.length)) by omega,
                List.drop_append]
            rw [List.drop_append_of_le_length
              (by have he := encodeMsg_data_length p; omega)]
            rw [← encodeMsg_data_eq]
          · rw [splitAligned_cons_lt_data_none (by omega) (by omega) (by omega)] at h
            cases h

theorem splitAlignedR_drop {p : List Nat} {ms : List Msg} {pos : Nat}
    {p₂ : List Nat} {ms₂ : List Msg}
    (h : splitAlignedR p ms pos = some (p₂, ms₂)) :
    (p ++ encodeMsgs ms).drop pos = p₂ ++ encodeMsgs ms₂ := by
  unfold splitAlignedR at h
  by_cases hle : pos ≤ p.length
  · rw [if_pos hle] at h
    cases h
    rw [List.drop_append_of_le_length hle]
  · rw [if_neg hle] at h
    rw [show pos = p.length + (pos - p.length) by omega, List.drop_append]
    exact splitAligned_drop ms _ p₂ ms₂ h

theorem WFmsgs_cons {m : Msg} {ms : List Msg} (h : WFmsgs (m :: ms)) :
    WFmsg m ∧ WFmsgs ms := by
  constructor
  · exact h m (by simp)
  · intro x hx; exact h x (by simp [hx])

theorem splitAligned_wf :
    ∀ (ms : List Msg) (pos : Nat) (p₂ : List Nat) (ms₂ : List Msg),
    WFmsgs ms → splitAligned ms pos = some (p₂, ms₂) → WFmsgs ms₂ := by
  intro ms
  induction ms with
  | nil =>
    intro pos p₂ ms₂ hwf h
    cases pos with
    | zero => rw [splitAligned_zero] at h; cases h; exact hwf
    | succ k => rw [splitAligned_nil (by omega)] at h; cases h
  | cons m ms ih =>
    intro pos p₂ ms₂ hwf h
    cases pos with
    | zero => rw [splitAligned_zero] at h; cases h; exact hwf
    | succ k =>
      by_cases hge : (encodeMsg m).length ≤ k + 1
      · rw [splitAligned_cons_ge (by omega) hge] at h
        exact ih _ _ _ (WFmsgs_cons hwf).2 h
      · cases m with
        | resize c r =>
          rw [splitAligned_cons_lt_resize (by omega) (by omega)] at h
          cases h
        | data p =>
          by_cases hhl : (encodeMsg (.data p)).length - p.length ≤ k + 1
          · rw [splitAligned_cons_lt_data (by omega) (by omega) hhl] at h
            cases h
            exact (WFmsgs_cons hwf).2
          · rw [splitAligned_cons_lt_data_none (by omega) (by omega) (by omega)] at h
            cases h

theorem splitAligned_add :
    ∀ (ms : List Msg) (a : Nat) (p₂ : List Nat) (ms₂ : List Msg),
    splitAligned ms a = some (p₂, ms₂) →
    ∀ q : Nat, splitAligned ms (a + q) = splitAlignedR p₂ ms₂ q := by
  intro ms
  induction ms with
  | nil =>
    intro a p₂ ms₂ h q
    cases a with
    | zero => rw [splitAligned_zero] at h; cases h; rw [splitAlignedR_nil_pending]; simp
    | succ k => rw [splitAligned_nil (by omega)] at h; cases h
  | cons m ms ih =>
    intro a p₂ ms₂ h q
    cases a with
    | zero =>
      rw [splitAligned_zero] at h; cases h
      rw [splitAlignedR_nil_pending]; simp
    | succ k =>
      by_cases hge : (encodeMsg m).length ≤ k + 1
      · rw [splitAligned_cons_ge (by omega) hge] at h
        rw [splitAligned_cons_ge (by omega) (by omega),
          show k + 1 + q - (encodeMsg m).length
            = (k + 1 - (encodeMsg m).length) + q by omega]
        exact ih _ _ _ h q
      · cases m with
        | resize c r =>
          rw [splitAligned_cons_lt_resize (by omega) (by omega)] at h
          cases h
        | data p =>
          by_cases hhl : (encodeMsg (.data p)).length - p.length ≤ k + 1
          · rw [splitAligned_cons_lt_data (by omega) (by omega) hhl] at h
            cases h
            have he := encodeMsg_data_length p
            unfold splitAlignedR
            by_cases haq : k + 1 + q < (encodeMsg (.data p)).length
            · rw [splitAligned_cons_lt_data (by omega) haq (by omega)]
              rw [if_pos (by simp [List.length_drop]; omega)]
              rw [List.drop_drop,
                show k + 1 - ((encodeMsg (Msg.data p)).length - p.length)
                    + q
                  = k + 1 + q - ((encodeMsg (Msg.data p)).length - p.length)
                  by omega]
            · rw [splitAligned_cons_ge (by omega) (by omega)]
              by_cases hq : q ≤ (p.drop (k + 1 - ((encodeMsg (Msg.data p)).length - p.length))).length
              · rw [if_pos hq]
                have hq' : q = (p.drop (k + 1 - ((encodeMsg (Msg.data p)).length - p.length))).length := by
                  simp [List.length_drop] at hq ⊢; omega
                have hdr : (p.drop (k + 1 - ((encodeMsg (Msg.data p)).length - p.length))).drop q = [] := by
                  apply List.drop_eq_nil_of_le
                  omega
                rw [hdr]
                rw [show k + 1 + q - (encodeMsg (Msg.data p)).length = 0 by
                  simp [List.length_drop] at hq'; omega]
                rw [splitAligned_zero]
              · rw [if_neg hq]
                simp only [List.length_drop] at hq ⊢
                rw [show k + 1 + q - (encodeMsg (Msg.data p)).length
                    = q - (p.length - (k + 1 - ((encodeMsg (Msg.data p)).length - p.length)))
                  by omega]
          · rw [splitAligned_cons_lt_data_none (by omega) (by omega) (by omega)] at h
            cases h

theorem splitAlignedR_add {p : List Nat} {ms : List Msg} {a : Nat}
    {p₂ : List Nat} {ms₂ : List Msg}
    (h : splitAlignedR p ms a = some (p₂, ms₂)) (q : Nat) :
    splitAlignedR p ms (a + q) = splitAlignedR p₂ ms₂ q := by
  unfold splitAlignedR at h
  by_cases hle : a ≤ p.length
  · rw [if_pos hle] at h
    cases h
    unfold splitAlignedR
    by_cases hq : a + q ≤ p.length
    · rw [if_pos hq, if_pos (by simp [List.length_drop]; omega)]
      rw [List.drop_drop]
    · rw [if_neg hq, if_neg (by simp [List.length_drop]; omega)]
      rw [show a + q - p.length = q - (p.drop a).length by
        simp [List.length_drop]; omega]
  · rw [if_neg hle] at h
    have := splitAligned_add ms (a - p.length) p₂ ms₂ h q
    unfold splitAlignedR
    rw [if_neg (by omega),
      show a + q - p.length = (a - p.length) + q by omega]
    exact this

theorem splitAlignedR_wf {p : List Nat} {ms : List Msg} {pos : Nat}
    {p₂ : List Nat} {ms₂ : List Msg}
    (hwf : WFmsgs ms) (h : splitAlignedR p ms pos = some (p₂, ms₂)) :
    WFmsgs ms₂ := by
  unfold splitAlignedR at h
  by_cases hle : pos ≤ p.length
  · rw [if_pos hle] at h; cases h; exact hwf
  · rw [if_neg hle] at h
    exact splitAligned_wf ms _ _ _ hwf h

theorem data_prefix_normal (p X : List Nat) :
    (48 :: 58 :: (natDigits p.length ++ [58])) ++ X
      = 48 :: 58 :: (natDigits p.length ++ 58 :: X) := by
  simp

/-- Splitting a whole-stream drain at an aligned position: draining the
prefix ends with an empty buffer and the remaining-payload counter equal to
the pending payload remainder, and the whole drain is the concatenation of
the prefix drain and the continuation drain. -/
theorem drain_take_aligned :
    ∀ (ms : List Msg) (pos : Nat) (p₂ : List Nat) (ms₂ : List Msg),
    WFmsgs ms → splitAligned ms pos = some (p₂, ms₂) →
    (drain ((encodeMsgs ms).take pos) 0).buf = [] ∧
    (drain ((encodeMsgs ms).take pos) 0).rem = p₂.length ∧
    drain (encodeMsgs ms) 0 =
      ⟨(drain ((encodeMsgs ms).take pos) 0).out
          ++ (drain (p₂ ++ encodeMsgs ms₂) p₂.length).out,
        (drain ((encodeMsgs ms).take pos) 0).rs
          ++ (drain (p₂ ++ encodeMsgs ms₂) p₂.length).rs,
        (drain (p₂ ++ encodeMsgs ms₂) p₂.length).buf,
        (drain (p₂ ++ encodeMsgs ms₂) p₂.length).rem⟩ := by
  intro ms
  induction ms with
  | nil =>
    intro pos p₂ ms₂ hwf h
    cases pos with
    | zero =>
      rw [splitAligned_zero] at h; cases h
      refine ⟨?_, ?_, ?_⟩ <;> simp [encodeMsgs_nil, drain_nil]
    | succ k => rw [splitAligned_nil (by omega)] at h; cases h
  | cons m ms ih =>
    intro pos p₂ ms₂ hwf h
    cases pos with
    | zero =>
      rw [splitAligned_zero] at h; cases h
      refine ⟨?_, ?_, ?_⟩ <;> simp [drain_nil]
    | succ k =>
      by_cases hge : (encodeMsg m).length ≤ k + 1
      · rw [splitAligned_cons_ge (by omega) hge] at h
        obtain ⟨hbuf, hrem, hcomp⟩ := ih _ _ _ (WFmsgs_cons hwf).2 h
        have htake : (encodeMsgs (m :: ms)).take (k + 1)
            = encodeMsg m ++ (encodeMsgs ms).take (k + 1 - (encodeMsg m).length) := by
          rw [encodeMsgs_cons]
          conv_lhs =>
            rw [show k + 1 = (encodeMsg m).length + (k + 1 - (encodeMsg m).length) by omega]
          rw [List.take_append]
        cases m with
        | data p =>
          have hp : p.length < 2 ^ 64 := (WFmsgs_cons hwf).1
          rw [htake, drain_data hp, encodeMsgs_cons, drain_data hp, hcomp]
          refine ⟨hbuf, hrem, ?_⟩
          simp
        | resize c r =>
          obtain ⟨hc, hr⟩ : c < 2 ^ 64 ∧ r < 2 ^ 64 := (WFmsgs_cons hwf).1
          rw [htake, drain_resize hc hr, encodeMsgs_cons, drain_resize hc hr, hcomp]
          refine ⟨hbuf, hrem, ?_⟩
          simp
      · cases m with
        | resize c r =>
          rw [splitAligned_cons_lt_resize (by omega) (by omega)] at h
          cases h
        | data p =>
          by_cases hhl : (encodeMsg (.data p)).length - p.length ≤ k + 1
          · rw [splitAligned_cons_lt_data (by omega) (by omega) hhl] at h
            cases h
            have hp : p.length < 2 ^ 64 := (WFmsgs_cons hwf).1
            have he := encodeMsg_data_length p
            have hH := data_header_length p
            have hj : k + 1 - ((encodeMsg (Msg.data p)).length - p.length) < p.length := by
              omega
            set j := k + 1 - ((encodeMsg (Msg.data p)).length - p.length) with hjdef
            have htake : (encodeMsgs (Msg.data p :: ms)).take (k + 1)
                = 48 :: 58 :: (natDigits p.length ++ 58 :: p.take j) := by
              rw [encodeMsgs_cons,
                List.take_append_of_le_length (by omega), encodeMsg_data_eq,
                show k + 1 = (48 :: 58 :: (natDigits p.length ++ [58])).length + j by omega,
                List.take_append, data_prefix_normal]
            have hA : drain ((encodeMsgs (Msg.data p :: ms)).take (k + 1)) 0
                = ⟨p.take j, [], [], p.length - j⟩ := by
              rw [htake, drain_step (by simp) (pq_data _ 58 hp (p.take j))]
              have hlen : (p.take j).length = j := by
                simp [List.length_take]; omega
              have hmin : min p.length (p.take j).length = j := by
                rw [hlen]; omega
              rw [hmin]
              rw [List.take_of_length_le (by omega), List.drop_eq_nil_of_le (by omega),
                drain_nil]
              simp
            refine ⟨by rw [hA], by rw [hA]; simp [List.length_drop], ?_⟩
            rw [hA, encodeMsgs_cons, drain_data hp,
              drain_payload (p.drop j) (encodeMsgs ms)]
            simp only [← List.append_assoc, List.take_append_drop, List.nil_append]
          · rw [splitAligned_cons_lt_data_none (by omega) (by omega) (by omega)] at h
            cases h

theorem drain_take_alignedR {p : List Nat} {ms : List Msg} {pos : Nat}
    {p₂ : List Nat} {ms₂ : List Msg}
    (hwf : WFmsgs ms) (h : splitAlignedR p ms pos = some (p₂, ms₂)) :
    (drain ((p ++ encodeMsgs ms).take pos) p.length).buf = [] ∧
    (drain ((p ++ encodeMsgs ms).take pos) p.length).rem = p₂.length ∧
    drain (p ++ encodeMsgs ms) p.length =
      ⟨(drain ((p ++ encodeMsgs ms).take pos) p.length).out
          ++ (drain (p₂ ++ encodeMsgs ms₂) p₂.length).out,
        (drain ((p ++ encodeMsgs ms).take pos) p.length).rs
          ++ (drain (p₂ ++ encodeMsgs ms₂) p₂.length).rs,
        (drain (p₂ ++ encodeMsgs ms₂) p₂.length).buf,
        (drain (p₂ ++ encodeMsgs ms₂) p₂.length).rem⟩ := by
  unfold splitAlignedR at h
  by_cases hle : pos ≤ p.length
  · rw [if_pos hle] at h
    cases h
    rw [List.take_append_of_le_length hle]
    cases hpos : pos with
    | zero =>
      refine ⟨?_, ?_, ?_⟩ <;> simp [drain_nil]
    | succ k =>
      rw [← hpos]
      have hplen : p.length ≠ 0 := by omega
      have hlen : (p.take pos).length = pos := by
        simp [List.length_take]; omega
      have htne : p.take pos ≠ [] := by
        intro hcon
        rw [hcon] at hlen
        simp at hlen
        omega
      have hA : drain (p.take pos) p.length = ⟨p.take pos, [], [], p.length - pos⟩ := by
        rw [drain_write htne hplen]
        have hmin : min p.length (p.take pos).length = pos := by
          rw [hlen]; omega
        rw [hmin, List.take_of_length_le (by omega),
          List.drop_eq_nil_of_le (by omega), drain_nil]
        simp
      refine ⟨by rw [hA], by rw [hA]; simp [List.length_drop], ?_⟩
      rw [hA, drain_payload p (encodeMsgs ms),
        drain_payload (p.drop pos) (encodeMsgs ms)]
      simp only [← List.append_assoc, List.take_append_drop, List.nil_append]
  · rw [if_neg hle] at h
    obtain ⟨hbuf0, hrem0, hcomp0⟩ := drain_take_aligned ms _ _ _ hwf h
    have htake : (p ++ encodeMsgs ms).take pos
        = p ++ (encodeMsgs ms).take (pos - p.length) := by
      conv_lhs => rw [show pos = p.length + (pos - p.length) by omega]
      rw [List.take_append]
    rw [htake, drain_payload p ((encodeMsgs ms).take (pos - p.length)),
      drain_payload p (encodeMsgs ms), hcomp0]
    refine ⟨by simpa using hbuf0, by simpa using hrem0, ?_⟩
    simp

/-- Chunk-by-chunk feeding along aligned boundaries equals the one-shot
drain of the remaining stream, for any accumulated output. -/
theorem feed_aligned_gen :
    ∀ (chunks : List (List Nat)) (p : List Nat) (ms : List Msg)
      (acc_out : List Nat) (acc_rs : List (Nat × Nat)),
    WFmsgs ms →
    chunks.flatten = p ++ encodeMsgs ms →
    (∀ k, k ≤ chunks.length →
      (splitAlignedR p ms ((chunks.take k).flatten).length).isSome = true) →
    chunks.foldl feedChunk ⟨acc_out, acc_rs, [], p.length⟩ =
      ⟨acc_out ++ (drain (p ++ encodeMsgs ms) p.length).out,
       acc_rs ++ (drain (p ++ encodeMsgs ms) p.length).rs,
       (drain (p ++ encodeMsgs ms) p.length).buf,
       (drain (p ++ encodeMsgs ms) p.length).rem⟩ := by
  intro chunks
  induction chunks with
  | nil =>
    intro p ms acc_out acc_rs hwf hflat halign
    simp only [List.flatten_nil] at hflat
    have hp : p = [] := by
      cases p with
      | nil => rfl
      | cons a p' => simp at hflat
    subst hp
    simp only [List.nil_append] at hflat
    have hms : ms = [] := encodeMsgs_eq_nil hflat.symm
    subst hms
    simp [encodeMsgs_nil, drain_nil, List.foldl_nil]
  | cons c cs ih =>
    intro p ms acc_out acc_rs hwf hflat halign
    have h1 := halign 1 (by simp)
    simp only [List.take_succ_cons, List.take_zero, List.flatten_cons,
      List.flatten_nil, List.append_nil] at h1
    rcases hsa : splitAlignedR p ms c.length with _ | ⟨p₂, ms₂⟩
    · rw [hsa] at h1; simp at h1
    obtain ⟨hbuf, hrem, hcomp⟩ := drain_take_alignedR hwf hsa
    have hc : c = (p ++ encodeMsgs ms).take c.length := by
      rw [← hflat]
      simp only [List.flatten_cons]
      rw [List.take_append_of_le_length (by simp)]
      simp
    have hstep : feedChunk ⟨acc_out, acc_rs, [], p.length⟩ c
        = ⟨acc_out ++ (drain ((p ++ encodeMsgs ms).take c.length) p.length).out,
           acc_rs ++ (drain ((p ++ encodeMsgs ms).take c.length) p.length).rs,
           [], p₂.length⟩ := by
      unfold feedChunk
      simp only [List.nil_append]
      rw [← hc] at hbuf hrem ⊢
      rw [hbuf, hrem]
    rw [List.foldl_cons, hstep]
    have hflat2 : cs.flatten = p₂ ++ encodeMsgs ms₂ := by
      have hdrop := splitAlignedR_drop hsa
      rw [← hflat] at hdrop
      simp only [List.flatten_cons] at hdrop
      rw [List.drop_append_of_le_length (by simp)] at hdrop
      simpa using hdrop
    have halign2 : ∀ k, k ≤ cs.length →
        (splitAlignedR p₂ ms₂ ((cs.take k).flatten).length).isSome = true := by
      intro k hk
      have h2 := halign (k + 1) (by simp; omega)
      simp only [List.take_succ_cons, List.flatten_cons, List.length_append] at h2
      rw [splitAlignedR_add hsa ((cs.take k).flatten).length] at h2
      exact h2
    have hwf2 : WFmsgs ms₂ := splitAlignedR_wf hwf hsa
    rw [ih p₂ ms₂ _ _ hwf2 hflat2 halign2]
    rw [hcomp]
    rw [← hc]
    simp

/-! ## Oracle-driven drain lemmas -/

theorem prependTrace_prependTrace (a b : List Ev) (x : Except String PassRes) :
    prependTrace a (prependTrace b x) = prependTrace (a ++ b) x := by
  cases x <;> simp [prependTrace]

theorem prependTrace_nil (x : Except String PassRes) : prependTrace [] x = x := by
  cases x <;> simp [prependTrace]

theorem prependTrace_isOk (evs : List Ev) (x : Except String PassRes) :
    (prependTrace evs x).isOk = x.isOk := by
  cases x <;> simp [prependTrace, Except.isOk, Except.toBool]

/-- With nothing pending and a successful parse, one iteration of the
oracle-driven drain emits the resize events and the codec result, then
services one write from the oracle. -/
theorem drain_writes_step_some {rok : Nat → Nat → Bool} (or : List WRes)
    {buf : List Nat} {v : Nat} {buf' : List Nat} {rs : List (Nat × Nat)}
    (hb : buf ≠ [])
    (hpq : process_queue rok buf = ⟨some v, buf', rs⟩) :
    drain_writes rok or buf 0
      = match or with
        | [] => .ok ⟨rs.map (fun q => Ev.resize q.1 q.2) ++ [Ev.codec (some v)],
            buf', v, true, []⟩
        | .wouldBlock :: or' =>
          .ok ⟨rs.map (fun q => Ev.resize q.1 q.2) ++ [Ev.codec (some v)],
            buf', v, false, or'⟩
        | .ioErr :: _ => .error "error writing to pty"
        | .accept n :: or' =>
          prependTrace
            (rs.map (fun q => Ev.resize q.1 q.2) ++ [Ev.codec (some v)]
              ++ [Ev.write (buf'.take (min v buf'.length))
                    (min n (min v buf'.length))])
            (drain_writes rok or' (buf'.drop (min n (min v buf'.length)))
              (v - min n (min v buf'.length))) := by
  cases or with
  | nil =>
    rw [drain_writes]
    rw [if_neg (by simpa using hb), if_pos rfl]
    simp [hpq]
  | cons w or' =>
    cases w with
    | wouldBlock =>
      rw [drain_writes]
      rw [if_neg (by simpa using hb), if_pos rfl]
      simp [hpq]
    | ioErr =>
      rw [drain_writes]
      rw [if_neg (by simpa using hb), if_pos rfl]
      simp [hpq]
    | accept n =>
      rw [drain_writes]
      rw [if_neg (by simpa using hb), if_pos rfl]
      simp [hpq]

/-- With nothing pending and `process_queue` returning `None` (incomplete
message or failed resize), the drain pass breaks, reporting no error and
leaving the write oracle untouched. -/
theorem drain_writes_break {rok : Nat → Nat → Bool} (or : List WRes)
    {buf buf' : List Nat} {rs : List (Nat × Nat)}
    (hb : buf ≠ [])
    (hpq : process_queue rok buf = ⟨none, buf', rs⟩) :
    drain_writes rok or buf 0
      = .ok ⟨rs.map (fun q => Ev.resize q.1 q.2) ++ [Ev.codec none],
          buf', 0, true, or⟩ := by
  cases or with
  | nil =>
    rw [drain_writes]
    rw [if_neg (by simpa using hb), if_pos rfl]
    simp [hpq]
  | cons w or' =>
    cases w <;>
      (rw [drain_writes]
       rw [if_neg (by simpa using hb), if_pos rfl]
       simp [hpq])

/-- Parsing a DATA header prepends the codec event and continues with the
declared length pending; the write oracle is untouched by the parse. -/
theorem drain_writes_data_header (rok : Nat → Nat → Bool) (or : List WRes)
    (s : Nat) {p : List Nat} (rest : List Nat)
    (hp : p.length < 2 ^ 64) (hpne : p ≠ []) :
    drain_writes rok or (48 :: s :: (natDigits p.length ++ 58 :: (p ++ rest))) 0
      = prependTrace [Ev.codec (some p.length)]
          (drain_writes rok or (p ++ rest) p.length) := by
  have hlen : p.length ≠ 0 := by
    intro h; exact hpne (List.eq_nil_of_length_eq_zero h)
  rw [drain_writes_step_some or (by simp) (pq_data rok s hp (p ++ rest))]
  cases or with
  | nil =>
    rw [drain_writes]
    rw [if_neg (by simp [hpne]), if_neg hlen]
    simp [prependTrace]
  | cons w or' =>
    cases w with
    | wouldBlock =>
      rw [drain_writes]
      rw [if_neg (by simp [hpne]), if_neg hlen]
      simp [prependTrace]
    | ioErr =>
      rw [drain_writes]
      rw [if_neg (by simp [hpne]), if_neg hlen]
      simp [prependTrace]
    | accept n =>
      rw [drain_writes]
      rw [if_neg (by simp [hpne]), if_neg hlen]
      simp only [List.map_nil, List.nil_append, prependTrace_prependTrace]

/-- The payload-forwarding phase of a drain pass: with `p.length` bytes
pending in front of `rest`, the pass runs the pure `writeOut` simulation on
`p`; every write offers only payload bytes, and `process_queue` runs again
only once the payload is exhausted, and then only on `rest`. -/
theorem drain_writes_payload (rok : Nat → Nat → Bool) :
    ∀ (or : List WRes) (p rest : List Nat),
    drain_writes rok or (p ++ rest) p.length
      = match writeOut or p with
        | .error e => .error e
        | .ok (evs, p', pw, orl) =>
          if p' = [] then prependTrace evs (drain_writes rok orl rest 0)
          else .ok ⟨evs, p' ++ rest, p'.length, pw, orl⟩ := by
  intro or
  induction or with
  | nil =>
    intro p rest
    cases p with
    | nil => rw [writeOut]; simp [prependTrace_nil]
    | cons q p₀ =>
      rw [writeOut]
      simp only
      rw [if_neg (by simp)]
      rw [drain_writes]
      rw [if_neg (by simp), if_neg (by simp)]
      all_goals simp
  | cons w or' ih =>
    intro p rest
    cases p with
    | nil => rw [writeOut]; simp [prependTrace_nil]
    | cons q p₀ =>
      cases w with
      | wouldBlock =>
        rw [writeOut]
        simp only
        rw [if_neg (by simp)]
        rw [drain_writes]
        rw [if_neg (by simp), if_neg (by simp)]
        all_goals simp
      | ioErr =>
        rw [writeOut]
        simp only
        rw [drain_writes]
        rw [if_neg (by simp), if_neg (by simp)]
        all_goals simp
      | accept n =>
        rw [writeOut]
        case x_2 => simp
        rw [drain_writes]
        rw [if_neg (by simp), if_neg (by simp)]
        simp only
        have hmin : min ((q :: p₀).length) ((q :: p₀) ++ rest).length
            = (q :: p₀).length := by
          simp
        have htk : ((q :: p₀) ++ rest).take
            (min (q :: p₀).length ((q :: p₀) ++ rest).length) = q :: p₀ := by
          rw [hmin, List.take_left]
        have hkk : min n (min (q :: p₀).length ((q :: p₀) ++ rest).length)
            = min n (q :: p₀).length := by
          rw [hmin]
        have hdp : ((q :: p₀) ++ rest).drop (min n (q :: p₀).length)
            = (q :: p₀).drop (min n (q :: p₀).length) ++ rest := by
          rw [List.drop_append_of_le_length (by simp)]
        have hrem : (q :: p₀).length - min n (q :: p₀).length
            = ((q :: p₀).drop (min n (q :: p₀).length)).length := by
          simp [List.length_drop]
        rw [hkk, htk, hdp, hrem, ih ((q :: p₀).drop (min n (q :: p₀).length)) rest]
        rcases hwo : writeOut or' ((q :: p₀).drop (min n (q :: p₀).length))
          with e | ⟨evs, p', pw, orl⟩
        · simp [prependTrace]
        · simp only
          by_cases hp' : p' = []
          · rw [if_pos hp', if_pos hp']
            rw [prependTrace_prependTrace]
            rfl
          · rw [if_neg hp', if_neg hp']
            simp [prependTrace]

/-- One write iteration with payload pending: exactly
`min remaining (buffer length)` bytes are offered, and the counter drops by
the count actually accepted. -/
theorem drain_writes_accept (rok : Nat → Nat → Bool) (or : List WRes) (n : Nat)
    {buf : List Nat} {rem : Nat} (hb : buf ≠ []) (hr : rem ≠ 0) :
    drain_writes rok (.accept n :: or) buf rem
      = prependTrace
          [Ev.write (buf.take (min rem buf.length)) (min n (min rem buf.length))]
          (drain_writes rok or (buf.drop (min n (min rem buf.length)))
            (rem - min n (min rem buf.length))) := by
  rw [drain_writes]
  rw [if_neg (by simpa using hb), if_neg hr]

/-- Every event of the payload phase is a plain write, and the accepted
bytes concatenate to exactly the consumed payload prefix: the payload is
forwarded verbatim and never interpreted. -/
theorem writeOut_verbatim :
    ∀ (or : List WRes) (p : List Nat) (evs : List Ev) (p' : List Nat)
      (pw : Bool) (orl : List WRes),
    writeOut or p = .ok (evs, p', pw, orl) →
    writtenBytes evs ++ p' = p ∧ ∀ e ∈ evs, ∃ off k, e = Ev.write off k := by
  intro or
  induction or with
  | nil =>
    intro p evs p' pw orl h
    cases p with
    | nil => rw [writeOut] at h; cases h; simp [writtenBytes]
    | cons q p₀ =>
      rw [writeOut] at h
      · cases h; simp [writtenBytes]
      · simp
  | cons w or' ih =>
    intro p evs p' pw orl h
    cases p with
    | nil => rw [writeOut] at h; cases h; simp [writtenBytes]
    | cons q p₀ =>
      cases w with
      | wouldBlock =>
        rw [writeOut] at h
        · cases h; simp [writtenBytes]
        · simp
      | ioErr =>
        rw [writeOut] at h
        · cases h
        · simp
      | accept n =>
        rw [writeOut] at h
        case x_2 => simp
        rcases hwo : writeOut or' ((q :: p₀).drop (min n (q :: p₀).length))
          with e | ⟨evs₀, p₀', pw₀, orl₀⟩ <;> rw [hwo] at h
        · cases h
        · cases h
          obtain ⟨hcat, hwr⟩ := ih _ _ _ _ _ hwo
          constructor
          · simp only [writtenBytes, List.map_cons, List.flatten_cons]
            rw [List.append_assoc]
            change (q :: p₀).take _ ++ (writtenBytes evs₀ ++ p') = q :: p₀
            rw [hcat, List.take_append_drop]
          · intro e he
            rcases List.mem_cons.mp he with rfl | he₀
            · exact ⟨q :: p₀, min n (q :: p₀).length, rfl⟩
            · exact hwr e he₀

theorem drain_writes_no_ioerr (rok : Nat → Nat → Bool) :
    ∀ (or : List WRes) (buf : List Nat) (rem : Nat),
    WRes.ioErr ∉ or → (drain_writes rok or buf rem).isOk = true := by
  intro or
  induction or with
  | nil =>
    intro buf rem _
    rw [drain_writes]
    repeat' split
    all_goals simp [Except.isOk, Except.toBool]
  | cons w or' ih =>
    intro buf rem hni
    cases w with
    | ioErr => simp at hni
    | wouldBlock =>
      rw [drain_writes]
      repeat' split
      all_goals simp [Except.isOk, Except.toBool]
    | accept n =>
      have hni' : WRes.ioErr ∉ or' := fun hm => hni (List.mem_cons_of_mem _ hm)
      rw [drain_writes]
      repeat' split
      all_goals
        first
        | (rw [prependTrace_isOk]; exact ih _ _ hni')
        | simp [Except.isOk, Except.toBool]

/-- A RESIZE message whose `set_size` fails: the whole message is consumed,
parsing of this pass stops with `None`, and nothing fails. -/
theorem drain_writes_resize_fail (rok : Nat → Nat → Bool) (or : List WRes)
    (s : Nat) {c r : Nat} (rest : List Nat)
    (hc : c < 2 ^ 64) (hr : r < 2 ^ 64)
    (hok : rok (c % 65536) (r % 65536) = false) :
    drain_writes rok or (49 :: s :: (natDigits c ++ 58 :: (natDigits r ++ 58 :: rest))) 0
      = .ok ⟨[Ev.codec none], rest, 0, true, or⟩ := by
  rw [drain_writes_break or (by simp) (pq_resize_fail rok s hc hr rest hok)]
  simp

/-- Behaviour of `remove_number` on a buffer holding no `':'`: nothing is
returned, 20-byte chunks are discarded while more than 20 bytes are
buffered, and what remains is a suffix of at most 20 bytes. -/
theorem remove_number_no_colon :
    ∀ (buf : List Nat), 58 ∉ buf →
    (remove_number buf).1 = none
    ∧ (remove_number buf).2.length ≤ 20
    ∧ (remove_number buf).2.IsSuffix buf
    ∧ (buf.length ≤ 20 → (remove_number buf).2 = buf)
    ∧ (buf.length > 20 →
        remove_number buf = remove_number (buf.drop 20)
        ∧ (remove_number buf).2.length < buf.length) := by
  intro buf
  induction buf using remove_number.induct with
  | case1 buf pos hpos len hp =>
    intro h; rw [bytePos_eq_none h] at hpos; cases hpos
  | case2 buf pos hpos hp =>
    intro h; rw [bytePos_eq_none h] at hpos; cases hpos
  | case3 buf hpos h20 ih =>
    intro h
    have hdrop : 58 ∉ buf.drop 20 := fun hm => h (List.mem_of_mem_drop hm)
    obtain ⟨i1, i2, i3, _, _⟩ := ih hdrop
    have hstep : remove_number buf = remove_number (buf.drop 20) := by
      rw [remove_number]
      simp only [hpos, if_pos h20]
    refine ⟨by rw [hstep]; exact i1, by rw [hstep]; exact i2,
      by rw [hstep]; exact i3.trans (List.drop_suffix 20 buf),
      by intro hc; omega, ?_⟩
    intro _
    refine ⟨hstep, ?_⟩
    rw [hstep]; omega
  | case4 buf hpos h20 =>
    intro h
    have hstep : remove_number buf = (none, buf) := by
      rw [remove_number]
      simp only [hpos, if_neg h20]
    rw [hstep]
    exact ⟨rfl, by simp; omega, List.suffix_refl buf, fun _ => rfl, fun hc => (h20 hc).elim⟩

/-! ## read_ticket_line lemmas -/

theorem rtl_success (cap : Nat) (evs : List NetEv) (u t tail : List Nat)
    (hu58 : 58 ∉ u) (hu10 : 10 ∉ u) (ht10 : 10 ∉ t)
    (hcap : (u ++ 58 :: (t ++ 10 :: tail)).length ≤ cap) :
    read_ticket_line cap (.ready (.bytes (u ++ 58 :: (t ++ 10 :: tail))) :: evs) []
      = .ok (u, t) := by
  have hassoc : (u ++ 58 :: t) ++ 10 :: tail = u ++ 58 :: (t ++ 10 :: tail) := by
    simp
  have hmem : (10 : Nat) ∈ u ++ 58 :: (t ++ 10 :: tail) := by simp
  have hpos10 : bytePos 10 (u ++ 58 :: (t ++ 10 :: tail))
      = some (u ++ 58 :: t).length := by
    rw [← hassoc]
    exact bytePos_append (by simp [hu10, ht10]) tail
  have hpos58 : bytePos 58 (u ++ 58 :: t) = some u.length :=
    bytePos_append hu58 t
  rw [read_ticket_line]
  simp only [List.nil_append, List.length_nil, Nat.sub_zero,
    List.take_of_length_le hcap]
  simp only [checkLine, hmem, if_pos, reduceIte]
  rw [finishTicket, hpos10]
  have hline : (u ++ 58 :: (t ++ 10 :: tail)).take (u ++ 58 :: t).length
      = u ++ 58 :: t := by
    rw [← hassoc, List.take_left]
  simp only [hline, hpos58]
  rw [List.take_left]
  have hdrop : (u ++ 58 :: t).drop (u.length + 1) = t := by
    rw [List.drop_append 1]
    rfl
  rw [hdrop]

theorem rtl_eof (cap : Nat) (evs : List NetEv) (buf : List Nat) :
    read_ticket_line cap (.ready .eof :: evs) buf
      = .error "connection closed before authentication" := by
  rw [read_ticket_line]

theorem rtl_timeout (cap : Nat) (buf : List Nat) :
    read_ticket_line cap [] buf = .error "timed out" := by
  rw [read_ticket_line]

theorem rtl_overflow (cap : Nat) (evs : List NetEv) (bs : List Nat)
    (hnl : 10 ∉ bs) (hcap : cap ≤ bs.length) :
    read_ticket_line cap (.ready (.bytes bs) :: evs) []
      = .error "authentication data is incomplete" := by
  have hnl' : (10 : Nat) ∉ bs.take cap := fun hm => hnl (List.mem_of_mem_take hm)
  have hlen : (bs.take cap).length = cap := by
    simp [List.length_take]; omega
  rw [read_ticket_line]
  simp only [List.nil_append, List.length_nil, Nat.sub_zero]
  rw [checkLine, if_neg (by simpa using hnl'), if_pos (by omega)]

theorem rtl_no_colon (cap : Nat) (evs : List NetEv) (u tail : List Nat)
    (hu58 : 58 ∉ u) (hu10 : 10 ∉ u)
    (hcap : (u ++ 10 :: tail).length ≤ cap) :
    read_ticket_line cap (.ready (.bytes (u ++ 10 :: tail)) :: evs) []
      = .error "authentication data is invalid" := by
  have hmem : (10 : Nat) ∈ u ++ 10 :: tail := by simp
  have hpos10 : bytePos 10 (u ++ 10 :: tail) = some u.length :=
    bytePos_append hu10 tail
  rw [read_ticket_line]
  simp only [List.nil_append, List.length_nil, Nat.sub_zero,
    List.take_of_length_le hcap]
  simp only [checkLine, hmem, if_pos, reduceIte]
  rw [finishTicket, hpos10]
  simp only [List.take_left, bytePos_eq_none hu58]

/-! ## Claims -/

/-- Claim C1: for every DATA message declaring payload length `L = p.length`,
once the codec returns `L` the next `L` raw bytes are forwarded to the pty
verbatim and never parsed as messages, whatever their content: the header
parse only prepends the codec event, the payload phase is the pure write
simulation `writeOut` (which emits write events only, whose accepted bytes
concatenate to exactly the consumed payload prefix), and `process_queue`
runs again only after the remaining-payload counter has reached zero, and
then only on the bytes after the payload. -/
theorem claim_C1 (rok : Nat → Nat → Bool) (or : List WRes) (s : Nat)
    (p rest : List Nat) (hne : p ≠ []) (hp : p.length < 2 ^ 64) :
    drain_writes rok or (48 :: s :: (natDigits p.length ++ 58 :: (p ++ rest))) 0
      = prependTrace [Ev.codec (some p.length)]
          (drain_writes rok or (p ++ rest) p.length)
    ∧ drain_writes rok or (p ++ rest) p.length
      = (match writeOut or p with
         | .error e => .error e
         | .ok (evs, p', pw, orl) =>
           if p' = [] then prependTrace evs (drain_writes rok orl rest 0)
           else .ok ⟨evs, p' ++ rest, p'.length, pw, orl⟩)
    ∧ (∀ (evs : List Ev) (p' : List Nat) (pw : Bool) (orl : List WRes),
        writeOut or p = .ok (evs, p', pw, orl) →
        writtenBytes evs ++ p' = p ∧ ∀ e ∈ evs, ∃ off k, e = Ev.write off k) :=
  ⟨drain_writes_data_header rok or s rest hp hne,
   drain_writes_payload rok or p rest,
   fun evs p' pw orl h => writeOut_verbatim or p evs p' pw orl h⟩

/-- Witness for C1 at a concrete input whose payload spells a RESIZE
message. -/
theorem claim_C1_witness :
    ([49, 58, 51, 58] : List Nat) ≠ []
    ∧ drain_writes (fun _ _ => true) [WRes.accept 10]
        (48 :: 58 :: (natDigits ([49, 58, 51, 58] : List Nat).length
          ++ 58 :: ([49, 58, 51, 58] ++ []))) 0
      = prependTrace [Ev.codec (some ([49, 58, 51, 58] : List Nat).length)]
          (drain_writes (fun _ _ => true) [WRes.accept 10]
            ([49, 58, 51, 58] ++ []) ([49, 58, 51, 58] : List Nat).length) :=
  ⟨by decide,
   (claim_C1 (fun _ _ => true) [WRes.accept 10] 58 [49, 58, 51, 58] []
     (by decide) (by decide)).1⟩

/-- Counterexample to claim C2 as stated: the same logical byte sequence
`"0:2:ab"` fed as the chunks `"0:2"` and `":ab"` (the boundary splits the
DATA header) forwards nothing and leaves a junk byte buffered, while fed as
one chunk it forwards `"ab"`. -/
theorem claim_C2_counterexample :
    ([[48, 58, 50], [58, 97, 98]] : List (List Nat)).flatten
      = [48, 58, 50, 58, 97, 98]
    ∧ feed [[48, 58, 50], [58, 97, 98]] ≠ feed [[48, 58, 50, 58, 97, 98]] := by
  have hpq1 : process_queue (fun _ _ => true) [48, 58, 50] = ⟨none, [50], []⟩ := by
    simp [process_queue, process_queue_loop, remove_number, bytePos,
      parse_usize, natValue, isDigitB]
  have h1 : drain [48, 58, 50] 0 = ⟨[], [], [50], 0⟩ :=
    drain_break (by decide) hpq1
  have hpq2 : process_queue (fun _ _ => true) [50, 58, 97, 98] = ⟨none, [98], []⟩ := by
    simp [process_queue, process_queue_loop, remove_number, bytePos,
      parse_usize, natValue, isDigitB]
  have h2 : drain [50, 58, 97, 98] 0 = ⟨[], [], [98], 0⟩ :=
    drain_break (by decide) hpq2
  have hpq3 : process_queue (fun _ _ => true) [48, 58, 50, 58, 97, 98]
      = ⟨some 2, [97, 98], []⟩ := by
    simp [process_queue, process_queue_loop, remove_number, bytePos,
      parse_usize, natValue, isDigitB]
  have h3 : drain [48, 58, 50, 58, 97, 98] 0 = ⟨[97, 98], [], [], 0⟩ := by
    rw [drain_step (by decide) hpq3]
    norm_num [drain_nil]
  have hf1 : feed [[48, 58, 50], [58, 97, 98]] = ⟨[], [], [98], 0⟩ := by
    unfold feed
    rw [List.foldl_cons, List.foldl_cons, List.foldl_nil]
    unfold feedChunk
    norm_num [h1, h2]
  have hf2 : feed [[48, 58, 50, 58, 97, 98]] = ⟨[97, 98], [], [], 0⟩ := by
    unfold feed
    rw [List.foldl_cons, List.foldl_nil]
    unfold feedChunk
    norm_num [h3]
  refine ⟨by decide, ?_⟩
  rw [hf1, hf2]
  decide

/-- Claim C2, amended: chunk-boundary insensitivity holds for well-formed
message streams provided no chunk boundary falls inside a message header
(tag, separator or number fields); boundaries at message boundaries or
anywhere inside a DATA payload preserve the extracted messages, the
forwarded bytes and the final codec state. -/
theorem claim_C2 (ms : List Msg) (chunks : List (List Nat))
    (hwf : WFmsgs ms) (hflat : chunks.flatten = encodeMsgs ms)
    (halign : ∀ k, k ≤ chunks.length →
      (splitAligned ms ((chunks.take k).flatten).length).isSome = true) :
    feed chunks = feed [encodeMsgs ms] := by
  unfold feed
  have halignR : ∀ k, k ≤ chunks.length →
      (splitAlignedR [] ms ((chunks.take k).flatten).length).isSome = true := by
    intro k hk
    rw [splitAlignedR_nil_pending]
    exact halign k hk
  have g := feed_aligned_gen chunks [] ms [] [] hwf (by simpa using hflat) halignR
  simp only [List.length_nil] at g
  rw [g, List.foldl_cons, List.foldl_nil]
  unfold feedChunk
  simp

/-- Witness for the amended C2: `"0:2:hi"` split right after its header. -/
theorem claim_C2_witness :
    feed [[48, 58, 50, 58], [104, 105]]
      = feed [encodeMsgs [Msg.data [104, 105]]] := by
  apply claim_C2 [Msg.data [104, 105]] [[48, 58, 50, 58], [104, 105]]
  · intro m hm
    rcases List.mem_singleton.mp hm with rfl
    show ([104, 105] : List Nat).length < 2 ^ 64
    norm_num
  · simp [encodeMsgs, encodeMsg, natDigits]
  · intro k hk
    simp only [List.length_cons, List.length_nil] at hk
    interval_cases k <;>
      simp [splitAligned, encodeMsg, natDigits, encodeMsgs]

/-- Claim C3: with the counter at zero the codec is invoked; each write
offers exactly `min remaining (buffer length)` bytes and decrements the
counter by the count actually written; and a RESIZE parsed mid-stream takes
effect strictly between the data bytes that precede and follow it, shown by
the full event trace of DATA `a`, RESIZE `(c, r)`, DATA `b`. -/
theorem claim_C3 (a b : List Nat) (c r s₁ s₂ s₃ : Nat)
    (ha : a ≠ []) (hb : b ≠ []) (hla : a.length < 2 ^ 64)
    (hlb : b.length < 2 ^ 64) (hc : c < 65536) (hr : r < 65536) :
    drain_writes (fun _ _ => true) [WRes.accept a.length, WRes.accept b.length]
      (48 :: s₁ :: (natDigits a.length ++ 58 ::
        (a ++ (49 :: s₂ :: (natDigits c ++ 58 :: (natDigits r ++ 58 ::
          (48 :: s₃ :: (natDigits b.length ++ 58 :: b)))))))) 0
    = .ok ⟨[Ev.codec (some a.length), Ev.write a a.length, Ev.resize c r,
            Ev.codec (some b.length), Ev.write b b.length], [], 0, true, []⟩
    ∧ (∀ (rok : Nat → Nat → Bool) (or : List WRes) (n : Nat)
        (buf : List Nat) (rem : Nat), buf ≠ [] → rem ≠ 0 →
        drain_writes rok (.accept n :: or) buf rem
          = prependTrace
              [Ev.write (buf.take (min rem buf.length))
                (min n (min rem buf.length))]
              (drain_writes rok or (buf.drop (min n (min rem buf.length)))
                (rem - min n (min rem buf.length)))) := by
  constructor
  · set R := 49 :: s₂ :: (natDigits c ++ 58 :: (natDigits r ++ 58 ::
      (48 :: s₃ :: (natDigits b.length ++ 58 :: b)))) with hR
    have hane : a ++ R ≠ [] := by simp [ha]
    have halen : a.length ≠ 0 := by
      intro h; exact ha (List.eq_nil_of_length_eq_zero h)
    rw [drain_writes_data_header (fun _ _ => true) _ s₁ R hla ha]
    rw [drain_writes_accept (fun _ _ => true) _ a.length hane halen]
    have hmin1 : min a.length (a ++ R).length = a.length := by simp
    rw [hmin1, Nat.min_self, List.take_left, List.drop_left, Nat.sub_self]
    have hpqD := pq_data (fun _ _ => true) s₃ hlb b
    have hpqR : process_queue (fun _ _ => true) R = ⟨some b.length, b, [(c, r)]⟩ := by
      rw [hR]
      rw [pq_resize_ok (fun _ _ => true) s₂ (by omega) (by omega) _ rfl]
      rw [hpqD]
      simp [Nat.mod_eq_of_lt hc, Nat.mod_eq_of_lt hr]
    rw [drain_writes_step_some [WRes.accept b.length] (by simp [hR]) hpqR]
    simp only [Nat.min_self, List.take_length, List.drop_length, Nat.sub_self]
    have hend : drain_writes (fun _ _ => true) [] [] 0
        = .ok ⟨[], [], 0, true, []⟩ := by
      rw [drain_writes]
      simp
    rw [hend]
    simp [prependTrace]
  · intro rok or n buf rem hbuf hrem
    exact drain_writes_accept rok or n hbuf hrem

/-- Witness for C3: DATA `"hi"`, RESIZE 80x24, DATA `"!"`. -/
theorem claim_C3_witness :
    drain_writes (fun _ _ => true)
      [WRes.accept ([104, 105] : List Nat).length, WRes.accept ([33] : List Nat).length]
      (48 :: 58 :: (natDigits ([104, 105] : List Nat).length ++ 58 ::
        ([104, 105] ++ (49 :: 58 :: (natDigits 80 ++ 58 :: (natDigits 24 ++ 58 ::
          (48 :: 58 :: (natDigits ([33] : List Nat).length ++ 58 :: [33])))))))) 0
    = .ok ⟨[Ev.codec (some ([104, 105] : List Nat).length),
            Ev.write [104, 105] ([104, 105] : List Nat).length, Ev.resize 80 24,
            Ev.codec (some ([33] : List Nat).length),
            Ev.write [33] ([33] : List Nat).length], [], 0, true, []⟩ :=
  (claim_C3 [104, 105] [33] 80 24 58 58 58 (by decide) (by decide)
    (by decide) (by decide) (by decide) (by decide)).1

/-- Claim C4: the decimal-number scanner never stalls: with no `':'`
buffered it returns `None`; while more than 20 bytes are buffered it
discards exactly 20 and keeps scanning, so the buffered byte count strictly
decreases, and at most 20 bytes (a suffix of the input) remain. Each call
terminates by construction (`remove_number` is total). -/
theorem claim_C4 (buf : List Nat) (h : 58 ∉ buf) :
    (remove_number buf).1 = none
    ∧ (remove_number buf).2.length ≤ 20
    ∧ (remove_number buf).2.IsSuffix buf
    ∧ (buf.length ≤ 20 → (remove_number buf).2 = buf)
    ∧ (buf.length > 20 →
        remove_number buf = remove_number (buf.drop 20)
        ∧ (remove_number buf).2.length < buf.length) :=
  remove_number_no_colon buf h

/-- Witness for C4 on a 25-byte colon-free buffer. -/
theorem claim_C4_witness :
    (58 : Nat) ∉ List.replicate 25 97
    ∧ (remove_number (List.replicate 25 97)).1 = none
    ∧ (remove_number (List.replicate 25 97)).2.length ≤ 20 :=
  ⟨by decide,
   (claim_C4 (List.replicate 25 97) (by decide)).1,
   (claim_C4 (List.replicate 25 97) (by decide)).2.1⟩

/-- Counterexample to claim C5 as stated: on the buffer `"0:xx:0:2:hi"`
the token `"xx"` fails to parse, yet the failed token is gone from the
buffer (not pending) and parsing does not halt for the pass: the following
DATA message is still extracted in the same `process_queue` call. -/
theorem claim_C5_counterexample :
    process_queue (fun _ _ => true)
        [48, 58, 120, 120, 58, 48, 58, 50, 58, 104, 105]
      = ⟨some 2, [104, 105], []⟩
    ∧ ¬((process_queue (fun _ _ => true)
          [48, 58, 120, 120, 58, 48, 58, 50, 58, 104, 105]).res = none
        ∧ (120 : Nat) ∈ (process_queue (fun _ _ => true)
            [48, 58, 120, 120, 58, 48, 58, 50, 58, 104, 105]).buf) := by
  have h : process_queue (fun _ _ => true)
      [48, 58, 120, 120, 58, 48, 58, 50, 58, 104, 105]
      = ⟨some 2, [104, 105], []⟩ := by
    simp [process_queue, process_queue_loop, remove_number, bytePos,
      parse_usize, natValue, isDigitB]
  exact ⟨h, by rw [h]; simp⟩

/-- Claim C5, amended: when a number field terminated by `':'` fails to
parse, `remove_number` consumes the failed token and its terminator (the
bytes are discarded, not left pending) and returns `None`; the DATA branch
of `process_queue` then resumes scanning at the byte after the `':'` in the
same pass, so later messages may still be extracted. -/
theorem claim_C5 (rok : Nat → Nat → Bool) (s : Nat) (tok rest : List Nat)
    (hcol : 58 ∉ tok) (hbad : parse_usize tok = none) :
    remove_number (tok ++ 58 :: rest) = (none, rest)
    ∧ process_queue rok (48 :: s :: (tok ++ 58 :: rest)) = process_queue rok rest := by
  have h1 : remove_number (tok ++ 58 :: rest) = (none, rest) := by
    rw [remove_number_token tok rest hcol, hbad]
  refine ⟨h1, ?_⟩
  rw [process_queue_eq_loop, process_queue_eq_loop,
    pq_loop_data_none rok 48 s _ rest (by norm_num) h1]

/-- Witness for the amended C5 on the token `"xx"`. -/
theorem claim_C5_witness :
    remove_number ([120, 120] ++ 58 :: [104, 105]) = (none, [104, 105])
    ∧ process_queue (fun _ _ => true) (48 :: 58 :: ([120, 120] ++ 58 :: [104, 105]))
      = process_queue (fun _ _ => true) [104, 105] :=
  claim_C5 (fun _ _ => true) 58 [120, 120] [104, 105] (by decide) (by decide)

/-- Counterexample to claim C6 as stated: a buffer holding only the
reserved ping tag byte `'2'` is left untouched (no byte is discarded),
because the loop waits for at least two buffered bytes. -/
theorem claim_C6_counterexample :
    process_queue (fun _ _ => true) [50] = ⟨none, [50], []⟩
    ∧ (process_queue (fun _ _ => true) [50]).buf ≠ List.drop 1 [50] := by
  have h : process_queue (fun _ _ => true) [50] = ⟨none, [50], []⟩ := by
    simp [process_queue, process_queue_loop]
  exact ⟨h, by rw [h]; simp⟩

/-- Claim C6, amended: for every buffer of at least two bytes whose first
byte is neither the DATA tag `'0'` nor the RESIZE tag `'1'` (including the
reserved ping tag), the codec discards exactly one byte and resumes parsing
at the next byte; no error path exists. With a single junk byte buffered
nothing is discarded until more data arrives. -/
theorem claim_C6 (rok : Nat → Nat → Bool) (b : Nat) (rest : List Nat)
    (hb : b < 256) (h48 : b ≠ 48) (h49 : b ≠ 49) (hne : rest ≠ []) :
    process_queue rok (b :: rest) = process_queue rok rest := by
  cases rest with
  | nil => exact absurd rfl hne
  | cons x rest' =>
    rw [process_queue_eq_loop, process_queue_eq_loop]
    exact pq_loop_other rok b x rest' (by omega) (by omega)

/-- Witness for the amended C6: the ping tag followed by more data. -/
theorem claim_C6_witness :
    process_queue (fun _ _ => true) (50 :: [48])
      = process_queue (fun _ _ => true) [48] :=
  claim_C6 (fun _ _ => true) 50 [48] (by decide) (by decide) (by decide) (by decide)

/-- Claim C7: `read_ticket_line` splits the first newline-terminated line at
the first `':'` into username and ticket (everything after the first colon,
verbatim, further colons included), and errors when the connection closes
first (EOF read), when the deadline elapses (event exhaustion), when the
buffer fills without a newline, or when the line holds no colon. -/
theorem claim_C7 :
    (∀ (cap : Nat) (evs : List NetEv) (u t tail : List Nat),
      58 ∉ u → 10 ∉ u → 10 ∉ t →
      (u ++ 58 :: (t ++ 10 :: tail)).length ≤ cap →
      read_ticket_line cap (.ready (.bytes (u ++ 58 :: (t ++ 10 :: tail))) :: evs) []
        = .ok (u, t))
    ∧ (∀ (cap : Nat) (evs : List NetEv) (buf : List Nat),
        read_ticket_line cap (.ready .eof :: evs) buf
          = .error "connection closed before authentication")
    ∧ (∀ (cap : Nat) (buf : List Nat),
        read_ticket_line cap [] buf = .error "timed out")
    ∧ (∀ (cap : Nat) (evs : List NetEv) (bs : List Nat),
        10 ∉ bs → cap ≤ bs.length →
        read_ticket_line cap (.ready (.bytes bs) :: evs) []
          = .error "authentication data is incomplete")
    ∧ (∀ (cap : Nat) (evs : List NetEv) (u tail : List Nat),
        58 ∉ u → 10 ∉ u → (u ++ 10 :: tail).length ≤ cap →
        read_ticket_line cap (.ready (.bytes (u ++ 10 :: tail)) :: evs) []
          = .error "authentication data is invalid") :=
  ⟨fun cap evs u t tail h1 h2 h3 h4 => rtl_success cap evs u t tail h1 h2 h3 h4,
   fun cap evs buf => rtl_eof cap evs buf,
   fun cap buf => rtl_timeout cap buf,
   fun cap evs bs h1 h2 => rtl_overflow cap evs bs h1 h2,
   fun cap evs u tail h1 h2 h3 => rtl_no_colon cap evs u tail h1 h2 h3⟩

/-- Witness for C7: `"alice:t:1\n"` yields username `"alice"` and ticket
`"t:1"` with its second colon kept verbatim; a colon-free line fails. -/
theorem claim_C7_witness :
    read_ticket_line 4096
      (.ready (.bytes ([97, 108, 105, 99, 101] ++ 58 :: ([116, 58, 49] ++ 10 :: []))) :: []) []
      = .ok ([97, 108, 105, 99, 101], [116, 58, 49])
    ∧ read_ticket_line 4096 (.ready (.bytes ([97, 98] ++ 10 :: [])) :: []) []
      = .error "authentication data is invalid" :=
  ⟨claim_C7.1 4096 [] [97, 108, 105, 99, 101] [116, 58, 49] []
     (by decide) (by decide) (by decide) (by decide),
   claim_C7.2.2.2.2 4096 [] [97, 98] [] (by decide) (by decide) (by decide)⟩

/-- Claim C8: `authenticate` succeeds exactly on an HTTP 200 response; any
other status or a transport failure is an error, which propagates through
`do_main` (fatal, no retry, no proxy mode); on success the two bytes
`"OK"` are written to the client before proxy setup proceeds. -/
theorem claim_C8 (resp : UreqResult) :
    ((authenticate true resp = .ok ()) ↔ resp = .ok 200)
    ∧ (resp = .ok 200 → after_auth true resp = .ok ([79, 75], true))
    ∧ (resp ≠ .ok 200 → ∃ e, after_auth true resp = .error e)
    ∧ (∀ resp2 : UreqResult, authenticate false resp2 = .error "invalid utf8") := by
  refine ⟨?_, ?_, ?_, fun resp2 => rfl⟩
  · constructor
    · intro h
      cases resp with
      | ok sc =>
        by_cases hs : sc = 200
        · rw [hs]
        · simp [authenticate, hs] at h
      | statusErr sc => simp [authenticate] at h
      | transportErr => simp [authenticate] at h
    · intro h
      rw [h]
      rfl
  · intro h
    rw [h]
    rfl
  · intro h
    cases resp with
    | ok sc =>
      have hs : sc ≠ 200 := fun hc => h (by rw [hc])
      exact ⟨"invalid authentication", by simp [after_auth, authenticate, hs]⟩
    | statusErr sc => exact ⟨"invalid authentication", rfl⟩
    | transportErr => exact ⟨"authentication request failed", rfl⟩

/-- Witness for C8 at status 200 and at a 403 rejection. -/
theorem claim_C8_witness :
    after_auth true (.ok 200) = .ok ([79, 75], true)
    ∧ (∃ e, after_auth true (.statusErr 403) = .error e) :=
  ⟨(claim_C8 (.ok 200)).2.1 rfl,
   (claim_C8 (.statusErr 403)).2.2.1 (by decide)⟩

/-- Claim C9: a failing `set_size` is not fatal: the RESIZE message is
consumed, the pass stops with a plain `None` (no error), the buffer resumes
exactly at the following message, and more generally the drain loop only
fails on a genuine write I/O error. -/
theorem claim_C9 :
    (∀ (rok : Nat → Nat → Bool) (or : List WRes) (s c r : Nat) (rest : List Nat),
      c < 2 ^ 64 → r < 2 ^ 64 → rok (c % 65536) (r % 65536) = false →
      drain_writes rok or
          (49 :: s :: (natDigits c ++ 58 :: (natDigits r ++ 58 :: rest))) 0
        = .ok ⟨[Ev.codec none], rest, 0, true, or⟩)
    ∧ (∀ (rok : Nat → Nat → Bool) (or : List WRes) (buf : List Nat) (rem : Nat),
        WRes.ioErr ∉ or → (drain_writes rok or buf rem).isOk = true) :=
  ⟨fun rok or s c r rest hc hr hok =>
     drain_writes_resize_fail rok or s rest hc hr hok,
   fun rok or buf rem h => drain_writes_no_ioerr rok or buf rem h⟩

/-- Witness for C9: a RESIZE 80x24 whose `set_size` fails, followed by a
ping byte, is consumed without any error. -/
theorem claim_C9_witness :
    drain_writes (fun _ _ => false) []
        (49 :: 58 :: (natDigits 80 ++ 58 :: (natDigits 24 ++ 58 :: [50]))) 0
      = .ok ⟨[Ev.codec none], [50], 0, true, []⟩ :=
  claim_C9.1 (fun _ _ => false) [] 58 80 24 [50] (by decide) (by decide) rfl

/-- Claim C10: the RESIZE column and row fields are parsed as full
`usize` values and truncated with `as u16` before `set_size`: the applied
geometry is `(cols mod 2^16, rows mod 2^16)`, and values of 65536 or more
are not rejected. -/
theorem claim_C10 (s c r : Nat) (hc : c < 2 ^ 64) (hr : r < 2 ^ 64) :
    process_queue (fun _ _ => true)
        (49 :: s :: (natDigits c ++ 58 :: (natDigits r ++ [58])))
      = ⟨none, [], [(c % 65536, r % 65536)]⟩ := by
  have h := pq_resize_ok (fun _ _ => true) s hc hr [] rfl
  simpa [process_queue] using h

/-- Witness for C10: cols 65536 and rows 70000 resize to (0, 4464). -/
theorem claim_C10_witness :
    process_queue (fun _ _ => true)
        (49 :: 58 :: (natDigits 65536 ++ 58 :: (natDigits 70000 ++ [58])))
      = ⟨none, [], [(65536 % 65536, 70000 % 65536)]⟩ :=
  claim_C10 58 65536 70000 (by norm_num) (by norm_num)
